import Mathlib

/-!
# A verification development for `vector.h`

`vector.h` generates, for an element type `base_t`, a growable array
`struct { size_t len, cap; base_t *arr; }` with the operations `init`,
`expand`, `set_len`, `push`, `pop`, `swap`, `index`, `set_index`,
`insert_fast`, `insert`, `remove_fast`, `remove` and `quicksort`.

Embedding.
* `size_t` is a natural number below `SIZE_MOD = 2 ^ 64`; `++`, `--`, `+`, `-`
  and `*` on it are taken modulo `SIZE_MOD` (`sz_add`, `sz_sub`, `sz_mul`).
* The element type `base_t` is a type `α` with its size in bytes, `sizeof α`
  (class `BaseT`).  The size enters the code in one place that matters for the
  results, the byte count `new_cap * sizeof(base_t)` of the `realloc` call of
  `_expand`; the `memmove` counts are in elements.
* The storage behind `arr` is a total map from slot index to element; `cap` is
  the field of the struct.  How many elements the block behind `arr` really
  holds after `_expand` is given by `expand_slots`.
* Every function returns a `Res`: the C return value, the value assigned to
  `errno` during the call (if any), the value stored through `out` (if any)
  and the vector after the call.
* The one `realloc` call an operation may make has the allocator's answer
  passed in as an `Alloc`: `Alloc.null stale` when `realloc` returns `NULL`,
  `Alloc.block fresh` when it returns a block.  What the answer means for the
  storage depends on the byte count of the call, see `expand`.
* Loops that the C code does not bound (`quicksort`) take a fuel argument and
  return `none` when it runs out.
-/

namespace Vect

/-- Width of `size_t` in bits.  The type comes from `<stdlib.h>`, not from the
repository; 64 is its width on the usual LP64 platforms. -/
def SIZE_BITS : Nat := 64

/-- Number of values of `size_t`; `SIZE_MAX` is `SIZE_MOD - 1`. -/
def SIZE_MOD : Nat := 2 ^ SIZE_BITS

/-- Addition on `size_t`. -/
def sz_add (a b : Nat) : Nat := (a + b) % SIZE_MOD

/-- Subtraction on `size_t` (operands below `SIZE_MOD`): `a - b` when it is not
negative, and otherwise the wrapped value `SIZE_MOD - (b - a)`. -/
def sz_sub (a b : Nat) : Nat := if b ≤ a then a - b else SIZE_MOD - (b - a)

/-- Multiplication on `size_t`. -/
def sz_mul (a b : Nat) : Nat := (a * b) % SIZE_MOD

/-- The element type `base_t` of a generated vector: a type together with
the size of its values in bytes, which is at least 1. -/
class BaseT (α : Type) where
  size : Nat
  size_pos : 0 < size

/-- The operator `sizeof(base_t)`. -/
def sizeof (α : Type) [inst : BaseT α] : Nat := inst.size

/-- The element type `int` of the test program (`VECTOR_DEFINE(vector, int)`);
`sizeof(int)` is 4 on the platforms where `size_t` has 64 bits. -/
instance BaseT_int : BaseT Int := ⟨4, by decide⟩

/-- The values the code assigns to `errno` (`ENOMEM` comes from `realloc`). -/
inductive Errno where
  | ERANGE
  | ENOMEM
  deriving DecidableEq, Repr

/-- The struct `vect_t`: `len`, `cap` and the storage reached through `arr`. -/
structure Vec (α : Type) where
  len : Nat
  cap : Nat
  arr : Nat → α

/-- Outcome of a call: return value, `errno` assignment, value stored through
`out`, and the vector afterwards. -/
structure Res (α : Type) where
  ret : Int
  errno : Option Errno
  out : Option α
  vec : Vec α

/-- The allocator's answer to the `realloc` call of an operation.
* `null stale`: the call returns `NULL`.  For a request of at least one byte,
  and for any request when the vector has no block yet, this is an allocation
  failure: `errno` is set to `ENOMEM` and the old block is untouched.  For a
  request of 0 bytes on an existing block `realloc` has released the block
  before returning `NULL` (as glibc does) and `errno` is not set; the storage
  behind the pointer the vector still holds reads `stale` from then on.
* `block fresh`: the call returns a block; the slots below the old capacity
  hold the old elements and the other slots hold `fresh k`.  The block has room
  for `bytes / sizeof(base_t)` elements, where `bytes` is the requested size. -/
inductive Alloc (α : Type) where
  | null (stale : Nat → α)
  | block (fresh : Nat → α)

variable {α : Type}

/-- The live range `arr[0], ..., arr[len - 1]` as a list. -/
def Vec.toList (v : Vec α) : List α := (List.range v.len).map v.arr

/-- The macro `_VECTOR_MAX(x, y)`: `((x) > (y) ? (x) : (y))`. -/
def VECTOR_MAX (x y : Nat) : Nat := if x > y then x else y

/-- The function `memmove(&arr[dst], &arr[src], n * sizeof(base_t))`: the `n`
slots from `dst` receive the former contents of the `n` slots from `src`. -/
def memmove (arr : Nat → α) (dst src n : Nat) : Nat → α :=
  fun k => if dst ≤ k ∧ k < dst + n then arr (src + (k - dst)) else arr k

/-- The function `_init`: the zero state; `junk` stands for whatever the storage map holds. -/
def init (junk : Nat → α) : Vec α := { len := 0, cap := 0, arr := junk }

/-- The rounding of `_expand`: `new_cap--`, five shift-or steps, `new_cap++`. -/
def round_up (new_cap : Nat) : Nat :=
  let n0 := sz_sub new_cap 1
  let n1 := n0 ||| (n0 >>> 1)
  let n2 := n1 ||| (n1 >>> 2)
  let n3 := n2 ||| (n2 >>> 4)
  let n4 := n3 ||| (n3 >>> 8)
  let n5 := n4 ||| (n4 >>> 16)
  sz_add n5 1

/-- The function `_expand`.  After the rounding and the test `new_cap <= v->cap`
it calls `realloc(v->arr, new_cap * sizeof(base_t))`; the product is a `size_t`
and wraps.  A vector built by these functions has `arr == NULL` exactly when
`cap == 0`, so `v.cap ≠ 0` says that there is a block to release.  On `NULL` the
function returns -1 without assigning to the struct: `len`, `cap` and the
pointer stay, and the storage reached through the pointer is the old one, or
`stale` when the call released the block.  Otherwise it stores the returned
pointer and `new_cap` and returns 0. -/
def expand [BaseT α] (alloc : Alloc α) (v : Vec α) (new_cap : Nat) : Res α :=
  let new_cap := round_up new_cap
  if new_cap ≤ v.cap then
    { ret := 0, errno := none, out := none, vec := v }
  else
    let bytes := sz_mul new_cap (sizeof α)
    match alloc with
    | Alloc.null stale =>
      if bytes = 0 ∧ v.cap ≠ 0 then
        { ret := -1, errno := none, out := none, vec := { v with arr := stale } }
      else
        { ret := -1, errno := some Errno.ENOMEM, out := none, vec := v }
    | Alloc.block fresh =>
      { ret := 0, errno := none, out := none,
        vec := { v with arr := fun k => if k < v.cap then v.arr k else fresh k,
                        cap := new_cap } }

/-- The number of elements the block behind `arr` has room for after
`_expand(v, new_cap)`, for a vector whose block had room for `cap` elements
before the call: unchanged when `realloc` is not called or fails, 0 when the
block was released, and `bytes / sizeof(base_t)` for a returned block, which is
the new `cap` unless the product `new_cap * sizeof(base_t)` wrapped. -/
def expand_slots [BaseT α] (alloc : Alloc α) (v : Vec α) (new_cap : Nat) : Nat :=
  let new_cap := round_up new_cap
  if new_cap ≤ v.cap then v.cap
  else
    let bytes := sz_mul new_cap (sizeof α)
    match alloc with
    | Alloc.null _ => if bytes = 0 ∧ v.cap ≠ 0 then 0 else v.cap
    | Alloc.block _ => bytes / sizeof α

/-- The function `_set_len`. -/
def set_len [BaseT α] (alloc : Alloc α) (v : Vec α) (len : Nat) : Res α :=
  if len > v.cap then
    let r := expand alloc v len
    if r.ret ≠ 0 then
      { ret := -1, errno := r.errno, out := none, vec := r.vec }
    else
      { ret := 0, errno := r.errno, out := none, vec := { r.vec with len := len } }
  else
    { ret := 0, errno := none, out := none, vec := { v with len := len } }

/-- The tail of `_push`: `v->arr[v->len++] = x; return 0;`. -/
def push_store (v : Vec α) (x : α) : Res α :=
  { ret := 0, errno := none, out := none,
    vec := { v with arr := Function.update v.arr v.len x, len := sz_add v.len 1 } }

/-- The function `_push`. -/
def push [BaseT α] (alloc : Alloc α) (v : Vec α) (x : α) : Res α :=
  if v.len = v.cap then
    let r := expand alloc v (sz_add v.len 1)
    if r.ret ≠ 0 then
      { ret := -1, errno := r.errno, out := none, vec := r.vec }
    else
      push_store r.vec x
  else
    push_store v x

/-- The function `_pop`; `outp` tells whether `out` is non-`NULL`. -/
def pop (v : Vec α) (outp : Bool) : Res α :=
  if v.len = 0 then
    { ret := -1, errno := some Errno.ERANGE, out := none, vec := v }
  else
    { ret := 0, errno := none,
      out := if outp then some (v.arr (sz_sub v.len 1)) else none,
      vec := { v with len := sz_sub v.len 1 } }

/-- The function `_swap`. -/
def swap (v : Vec α) (i j : Nat) : Res α :=
  if VECTOR_MAX i j ≥ v.len then
    { ret := -1, errno := some Errno.ERANGE, out := none, vec := v }
  else
    let tmp := v.arr i
    let a1 := Function.update v.arr i (v.arr j)
    let a2 := Function.update a1 j tmp
    { ret := 0, errno := none, out := none, vec := { v with arr := a2 } }

/-- The function `_index`; `outp` tells whether `out` is non-`NULL`. -/
def index (v : Vec α) (i : Nat) (outp : Bool) : Res α :=
  if i ≥ v.len then
    { ret := -1, errno := some Errno.ERANGE, out := none, vec := v }
  else
    { ret := 0, errno := none, out := if outp then some (v.arr i) else none, vec := v }

/-- The function `_set_index`. -/
def set_index (v : Vec α) (i : Nat) (x : α) : Res α :=
  if i ≥ v.len then
    { ret := -1, errno := some Errno.ERANGE, out := none, vec := v }
  else
    { ret := 0, errno := none, out := none,
      vec := { v with arr := Function.update v.arr i x } }

/-- The function `_insert_fast`. -/
def insert_fast [BaseT α] (alloc : Alloc α) (v : Vec α) (i : Nat) (x : α) : Res α :=
  if i > v.len then
    { ret := -1, errno := some Errno.ERANGE, out := none, vec := v }
  else
    let r := set_len alloc v (sz_add (VECTOR_MAX v.len i) 1)
    if r.ret ≠ 0 then
      { ret := -1, errno := r.errno, out := none, vec := r.vec }
    else
      let w := r.vec
      let a1 := Function.update w.arr (sz_sub w.len 1) (w.arr i)
      let a2 := Function.update a1 i x
      { ret := 0, errno := none, out := none, vec := { w with arr := a2 } }

/-- The function `_insert`. -/
def insert [BaseT α] (alloc : Alloc α) (v : Vec α) (i : Nat) (x : α) : Res α :=
  if i > v.len then
    { ret := -1, errno := some Errno.ERANGE, out := none, vec := v }
  else
    let r := set_len alloc v (sz_add (VECTOR_MAX v.len i) 1)
    if r.ret ≠ 0 then
      { ret := -1, errno := r.errno, out := none, vec := r.vec }
    else
      let w := r.vec
      let a1 := memmove w.arr (sz_add i 1) i (sz_sub (sz_sub w.len 1) i)
      let a2 := Function.update a1 i x
      { ret := 0, errno := none, out := none, vec := { w with arr := a2 } }

/-- The function `_remove_fast`; `outp` tells whether `out` is non-`NULL`. -/
def remove_fast (v : Vec α) (i : Nat) (outp : Bool) : Res α :=
  if i ≥ v.len then
    { ret := -1, errno := some Errno.ERANGE, out := none, vec := v }
  else
    { ret := 0, errno := none, out := if outp then some (v.arr i) else none,
      vec := { v with arr := Function.update v.arr i (v.arr (sz_sub v.len 1)),
                      len := sz_sub v.len 1 } }

/-- The function `_remove`; `outp` tells whether `out` is non-`NULL`. -/
def remove (v : Vec α) (i : Nat) (outp : Bool) : Res α :=
  if i ≥ v.len then
    { ret := -1, errno := some Errno.ERANGE, out := none, vec := v }
  else
    { ret := 0, errno := none, out := if outp then some (v.arr i) else none,
      vec := { v with arr := memmove v.arr i (sz_add i 1) (sz_sub v.len i),
                      len := sz_sub v.len 1 } }

/-- The loop `while (compare(v->arr[lo], piv) < 0) lo++;` of `_quicksort`. -/
def scan_lo (compare : α → α → Int) (piv : α) (arr : Nat → α) : Nat → Nat → Option Nat
  | 0, _ => none
  | fuel + 1, lo =>
    if compare (arr lo) piv < 0 then scan_lo compare piv arr fuel (sz_add lo 1) else some lo

/-- The loop `while (compare(v->arr[hi], piv) > 0) hi--;` of `_quicksort`. -/
def scan_hi (compare : α → α → Int) (piv : α) (arr : Nat → α) : Nat → Nat → Option Nat
  | 0, _ => none
  | fuel + 1, hi =>
    if compare (arr hi) piv > 0 then scan_hi compare piv arr fuel (sz_sub hi 1) else some hi

/-- The `for (...;; lo++, hi--)` loop of `_quicksort`, entered with the current
`lo` and `hi`; returns the vector and the value of `lo` at the `break`. -/
def partition_loop (compare : α → α → Int) (piv : α) :
    Nat → Vec α → Nat → Nat → Option (Vec α × Nat)
  | 0, _, _, _ => none
  | fuel + 1, v, lo, hi =>
    match scan_lo compare piv v.arr (fuel + 1) lo with
    | none => none
    | some lo1 =>
      match scan_hi compare piv v.arr (fuel + 1) hi with
      | none => none
      | some hi1 =>
        if lo1 ≥ hi1 then some (v, lo1)
        else partition_loop compare piv fuel (swap v lo1 hi1).vec (sz_add lo1 1) (sz_sub hi1 1)

/-- The function `_quicksort`.  The two sub-vectors `v1` and `v2` are windows
on the storage of `v`: `v1.arr = v->arr` and `v2.arr = v->arr + v1.len`, so
the second call sees the storage as the first call left it and the storage of
`v` afterwards is made of both windows.  Their `cap` is never read. -/
def quicksort (compare : α → α → Int) : Nat → Vec α → Option (Vec α)
  | 0, _ => none
  | fuel + 1, v =>
    if v.len < 2 then some v
    else
      let piv := v.arr (v.len / 2)
      match partition_loop compare piv (fuel + 1) v 0 (sz_sub v.len 1) with
      | none => none
      | some (w, lo) =>
        let v1 : Vec α := { len := lo, cap := w.cap, arr := w.arr }
        match quicksort compare fuel v1 with
        | none => none
        | some v1' =>
          let v2 : Vec α :=
            { len := sz_sub w.len lo, cap := w.cap, arr := fun k => v1'.arr (lo + k) }
          match quicksort compare fuel v2 with
          | none => none
          | some v2' =>
            some { w with arr := fun k => if k < lo then v1'.arr k else v2'.arr (k - lo) }

/-- The comparator `int_compare` of the test program. -/
def int_compare (x y : Int) : Int :=
  if x ≠ y then (if x < y then -1 else 1) else 0

/-- A vector whose live range is the given list (capacity equal to the length). -/
def ofList [Inhabited α] (l : List α) : Vec α :=
  { len := l.length, cap := l.length, arr := fun k => l.getD k default }

/-- A three-way comparator that is a total, consistent ordering: the sign of
`compare a b` is the opposite of the sign of `compare b a` (so `compare a a` is
`0` and any two elements are comparable), and `compare · · ≤ 0` is transitive. -/
structure TotalCmp (compare : α → α → Int) : Prop where
  anti : ∀ a b, compare a b < 0 ↔ 0 < compare b a
  trans : ∀ a b c, compare a b ≤ 0 → compare b c ≤ 0 → compare a c ≤ 0

/-- Successive `_push` calls, one per entry `(fresh, x)`, each with the allocator's
answer `Alloc.block fresh`; `none` as soon as a call returns non-zero. -/
def push_all [BaseT α] : Vec α → List ((Nat → α) × α) → Option (Vec α)
  | v, [] => some v
  | v, (fresh, x) :: rest =>
    let r := push (Alloc.block fresh) v x
    if r.ret = 0 then push_all r.vec rest else none

/-- The `n` successive calls `_pop(v, &x)`; returns the values stored in `x`, in
call order, and the vector afterwards; `none` as soon as a call returns non-zero. -/
def pop_n : Nat → Vec α → Option (List α × Vec α)
  | 0, v => some ([], v)
  | n + 1, v =>
    let r := pop v true
    if r.ret = 0 then
      match r.out, pop_n n r.vec with
      | some x, some (xs, w) => some (x :: xs, w)
      | _, _ => none
    else none

/-- Successive calls `_insert(v, 0, x)`, one per entry `(fresh, x)`, each with
the allocator's answer `Alloc.block fresh`; `none` as soon as a call returns
non-zero. -/
def insert_front_all [BaseT α] : Vec α → List ((Nat → α) × α) → Option (Vec α)
  | v, [] => some v
  | v, (fresh, x) :: rest =>
    let r := insert (Alloc.block fresh) v 0 x
    if r.ret = 0 then insert_front_all r.vec rest else none

/-- The `n` successive calls `_remove(v, 0, &x)`; returns the values stored in
`x`, in call order, and the vector afterwards; `none` as soon as a call returns
non-zero. -/
def remove_front_n : Nat → Vec α → Option (List α × Vec α)
  | 0, v => some ([], v)
  | n + 1, v =>
    let r := remove v 0 true
    if r.ret = 0 then
      match r.out, remove_front_n n r.vec with
      | some x, some (xs, w) => some (x :: xs, w)
      | _, _ => none
    else none

/-- The scenario of `test_insert_remove` for `size = n`: the values `0, ..., n - 1`
are inserted in that order, each at index 0, into a vector in the zero state,
then index 0 is removed `n` times; returns the removed values in call order.
Every allocation succeeds and leaves `fresh` in the new slots. -/
def insert_remove_run (fresh : Nat → Int) (n : Nat) : Option (List Int) :=
  match insert_front_all (init fresh)
      ((List.range n).map fun (k : Nat) => (fresh, (k : Int))) with
  | none => none
  | some v => (remove_front_n n v).map Prod.fst

/-- A call of `_insert_fast` (with a successful allocation leaving `fresh` in new
slots) or of `_remove_fast` (with a non-`NULL` `out`). -/
inductive FastOp (α : Type) where
  | ins (fresh : Nat → α) (i : Nat) (x : α)
  | rem (i : Nat)

/-- The values inserted by a sequence of calls. -/
def inserted : List (FastOp α) → List α
  | [] => []
  | FastOp.ins _ _ x :: rest => x :: inserted rest
  | FastOp.rem _ :: rest => inserted rest

/-- The indices of a sequence of calls are valid for a vector of length `n`:
`i ≤ len` at each `_insert_fast`, `i < len` at each `_remove_fast`. -/
def valid_fast : Nat → List (FastOp α) → Prop
  | _, [] => True
  | n, FastOp.ins _ i _ :: rest => i ≤ n ∧ valid_fast (n + 1) rest
  | n, FastOp.rem i :: rest => i < n ∧ valid_fast (n - 1) rest

/-- Runs a sequence of calls; returns the vector afterwards and the values the
`_remove_fast` calls stored in `out`, in call order; `none` as soon as a call
returns non-zero. -/
def run_fast [BaseT α] : Vec α → List (FastOp α) → Option (Vec α × List α)
  | v, [] => some (v, [])
  | v, FastOp.ins fresh i x :: rest =>
    let r := insert_fast (Alloc.block fresh) v i x
    if r.ret = 0 then run_fast r.vec rest else none
  | v, FastOp.rem i :: rest =>
    let r := remove_fast v i true
    if r.ret = 0 then
      match r.out, run_fast r.vec rest with
      | some y, some (w, ys) => some (w, y :: ys)
      | _, _ => none
    else none

/-- The `n` calls `_set_index(v, i, f i)` for `i = 0, ..., n - 1`, in that order;
`none` as soon as a call returns non-zero. -/
def set_index_all (f : Nat → α) : Nat → Vec α → Option (Vec α)
  | 0, v => some v
  | n + 1, v =>
    match set_index_all f n v with
    | none => none
    | some w =>
      let r := set_index w n (f n)
      if r.ret = 0 then some r.vec else none

/-- What the partition loop of `_quicksort` does with its indices, in program
order: an evaluation of `v->arr[i]`, an execution of `hi--` when `hi` has the
given value, a call `swap(v, lo, hi)` together with its return value. -/
inductive Step where
  | read (i : Nat)
  | dec (hi : Nat)
  | call_swap (lo hi : Nat) (ret : Int)
  deriving DecidableEq, Repr

/-- A step stays inside a range of length `len`: a read uses an index below
`len`, `hi--` is executed with `hi > 0`, and `swap` is called with
`lo < hi < len` and returns 0. -/
def Step.safe (len : Nat) : Step → Prop
  | Step.read i => i < len
  | Step.dec hi => 0 < hi
  | Step.call_swap lo hi ret => lo < hi ∧ hi < len ∧ ret = 0

/-- The loop `while (compare(v->arr[lo], piv) < 0) lo++;` as in `scan_lo`, with
the list of its steps. -/
def scan_lo_tr (compare : α → α → Int) (piv : α) (arr : Nat → α) :
    Nat → Nat → Option (Nat × List Step)
  | 0, _ => none
  | fuel + 1, lo =>
    if compare (arr lo) piv < 0 then
      match scan_lo_tr compare piv arr fuel (sz_add lo 1) with
      | none => none
      | some (lo1, tr) => some (lo1, Step.read lo :: tr)
    else some (lo, [Step.read lo])

/-- The loop `while (compare(v->arr[hi], piv) > 0) hi--;` as in `scan_hi`, with
the list of its steps. -/
def scan_hi_tr (compare : α → α → Int) (piv : α) (arr : Nat → α) :
    Nat → Nat → Option (Nat × List Step)
  | 0, _ => none
  | fuel + 1, hi =>
    if compare (arr hi) piv > 0 then
      match scan_hi_tr compare piv arr fuel (sz_sub hi 1) with
      | none => none
      | some (hi1, tr) => some (hi1, Step.read hi :: Step.dec hi :: tr)
    else some (hi, [Step.read hi])

/-- The `for (...;; lo++, hi--)` loop of `_quicksort` as in `partition_loop`, with
the list of its steps (the `hi--` of the loop header included). -/
def partition_loop_tr (compare : α → α → Int) (piv : α) :
    Nat → Vec α → Nat → Nat → Option (Vec α × Nat × List Step)
  | 0, _, _, _ => none
  | fuel + 1, v, lo, hi =>
    match scan_lo_tr compare piv v.arr (fuel + 1) lo with
    | none => none
    | some (lo1, t1) =>
      match scan_hi_tr compare piv v.arr (fuel + 1) hi with
      | none => none
      | some (hi1, t2) =>
        if lo1 ≥ hi1 then some (v, lo1, t1 ++ t2)
        else
          match partition_loop_tr compare piv fuel (swap v lo1 hi1).vec
              (sz_add lo1 1) (sz_sub hi1 1) with
          | none => none
          | some (w, lo2, t3) =>
            some (w, lo2,
              t1 ++ t2 ++ Step.call_swap lo1 hi1 (swap v lo1 hi1).ret :: Step.dec hi1 :: t3)

/-- The slot `_set_index(v, i, x)` stores into: `v->arr[i] = x` is executed when
`i < len`, and nothing is stored otherwise. -/
def set_index_writes (v : Vec α) (i : Nat) : List Nat :=
  if i ≥ v.len then [] else [i]

/-- The slot `_index(v, i, out)` reads (`out` not `NULL`): `*out = v->arr[i]` is
executed when `i < len`, and nothing is read otherwise. -/
def index_reads (v : Vec α) (i : Nat) : List Nat :=
  if i ≥ v.len then [] else [i]

/-- The slots read by `memmove(&arr[dst], &arr[src], n * sizeof(base_t))`. -/
def memmove_reads (src n : Nat) : List Nat := (List.range n).map fun k => src + k

/-- The slots written by `memmove(&arr[dst], &arr[src], n * sizeof(base_t))`. -/
def memmove_writes (dst n : Nat) : List Nat := (List.range n).map fun k => dst + k

/-- The slots read by the `memmove` call of `_remove(v, i, out)`, which is
`memmove(&v->arr[i], &v->arr[i + 1], (v->len - i) * sizeof(base_t))`. -/
def remove_reads (v : Vec α) (i : Nat) : List Nat :=
  memmove_reads (sz_add i 1) (sz_sub v.len i)

/-- The slots written by the `memmove` call of `_remove(v, i, out)`. -/
def remove_writes (v : Vec α) (i : Nat) : List Nat :=
  memmove_writes i (sz_sub v.len i)

/-! ## Arithmetic on `size_t` -/

theorem sz_add_eq {a b : Nat} (h : a + b < SIZE_MOD) : sz_add a b = a + b := by
  unfold sz_add; exact Nat.mod_eq_of_lt h

theorem sz_sub_eq {a b : Nat} (hb : b ≤ a) (_ha : a < SIZE_MOD) : sz_sub a b = a - b := by
  unfold sz_sub
  rw [if_pos hb]

/-! ## Quicksort -/

theorem TotalCmp.refl_eq {compare : α → α → Int} (h : TotalCmp compare) (a : α) :
    compare a a = 0 := by
  have h1 := h.anti a a
  omega

theorem TotalCmp.flip {compare : α → α → Int} (h : TotalCmp compare) {a b : α}
    (hab : 0 ≤ compare a b) : compare b a ≤ 0 := by
  by_contra hc
  have := (h.anti a b).2 (by omega)
  omega

theorem map_range_swap_perm (arr : Nat → α) (n i j : Nat) (hi : i < n) (hj : j < n) :
    ((List.range n).map (Function.update (Function.update arr i (arr j)) j (arr i))).Perm
      ((List.range n).map arr) := by
  have hfun : Function.update (Function.update arr i (arr j)) j (arr i)
      = arr ∘ (Equiv.swap i j) := by
    funext k
    simp only [Function.update, Function.comp, Equiv.swap_apply_def]
    by_cases h1 : k = j
    · subst h1; by_cases h2 : k = i <;> simp [h2]
    · by_cases h2 : k = i
      · subst h2; simp [h1]
      · simp [h1, h2]
  rw [hfun, ← List.map_map]
  apply List.Perm.map
  rw [List.perm_ext_iff_of_nodup ((List.nodup_range n).map (Equiv.swap i j).injective)
    (List.nodup_range n)]
  intro a
  simp only [List.mem_map, List.mem_range]
  constructor
  · rintro ⟨k, hk, rfl⟩
    rw [Equiv.swap_apply_def]; split_ifs <;> omega
  · intro ha
    refine ⟨Equiv.swap i j a, ?_, by simp⟩
    rw [Equiv.swap_apply_def]; split_ifs <;> omega

theorem scan_lo_spec (compare : α → α → Int) (piv : α) (arr : Nat → α) :
    ∀ (fuel lo s : Nat), lo ≤ s → s < SIZE_MOD → ¬ compare (arr s) piv < 0 → s - lo < fuel →
      ∃ lo1, scan_lo compare piv arr fuel lo = some lo1 ∧ lo ≤ lo1 ∧ lo1 ≤ s ∧
        ¬ compare (arr lo1) piv < 0 ∧ ∀ k, lo ≤ k → k < lo1 → compare (arr k) piv < 0 := by
  intro fuel
  induction fuel with
  | zero => intro lo s _ _ _ h; omega
  | succ f ih =>
    intro lo s hls hs hstop hf
    unfold scan_lo
    by_cases hc : compare (arr lo) piv < 0
    · have hne : lo ≠ s := by rintro rfl; exact hstop hc
      have hlt : lo < s := by omega
      rw [if_pos hc, sz_add_eq (by omega)]
      obtain ⟨lo1, h1, h2, h3, h4, h5⟩ := ih (lo + 1) s (by omega) hs hstop (by omega)
      refine ⟨lo1, h1, by omega, h3, h4, ?_⟩
      intro k hk1 hk2
      by_cases hk : k = lo
      · subst hk; exact hc
      · exact h5 k (by omega) hk2
    · rw [if_neg hc]
      exact ⟨lo, rfl, le_refl _, hls, hc, fun k h1 h2 => by omega⟩

theorem scan_hi_spec (compare : α → α → Int) (piv : α) (arr : Nat → α) :
    ∀ (fuel hi t : Nat), t ≤ hi → hi < SIZE_MOD → ¬ compare (arr t) piv > 0 → hi - t < fuel →
      ∃ hi1, scan_hi compare piv arr fuel hi = some hi1 ∧ t ≤ hi1 ∧ hi1 ≤ hi ∧
        ¬ compare (arr hi1) piv > 0 ∧ ∀ k, hi1 < k → k ≤ hi → compare (arr k) piv > 0 := by
  intro fuel
  induction fuel with
  | zero => intro hi t _ _ _ h; omega
  | succ f ih =>
    intro hi t hth hh hstop hf
    unfold scan_hi
    by_cases hc : compare (arr hi) piv > 0
    · have hne : hi ≠ t := by rintro rfl; exact hstop hc
      have hlt : t < hi := by omega
      rw [if_pos hc, sz_sub_eq (by omega) hh]
      obtain ⟨hi1, h1, h2, h3, h4, h5⟩ := ih (hi - 1) t (by omega) (by omega) hstop (by omega)
      refine ⟨hi1, h1, h2, by omega, h4, ?_⟩
      intro k hk1 hk2
      by_cases hk : k = hi
      · subst hk; exact hc
      · exact h5 k hk1 (by omega)
    · rw [if_neg hc]
      exact ⟨hi, rfl, hth, le_refl _, hc, fun k h1 h2 => by omega⟩

theorem swap_ok (v : Vec α) (i j : Nat) (hi : i < v.len) (hj : j < v.len) :
    swap v i j = ⟨0, none, none,
      ⟨v.len, v.cap, Function.update (Function.update v.arr i (v.arr j)) j (v.arr i)⟩⟩ := by
  unfold swap VECTOR_MAX
  have : ¬ (if i > j then i else j) ≥ v.len := by split_ifs <;> omega
  rw [if_neg this]

theorem partition_loop_spec (compare : α → α → Int) (piv : α) :
    ∀ (fuel : Nat) (v : Vec α) (lo hi : Nat),
      v.len < SIZE_MOD → lo ≤ hi + 1 → hi < v.len →
      (∀ k, k < lo → compare (v.arr k) piv ≤ 0) →
      (∀ k, hi < k → k < v.len → 0 ≤ compare (v.arr k) piv) →
      (∃ s, lo ≤ s ∧ s ≤ hi + 1 ∧ s < v.len ∧ 0 ≤ compare (v.arr s) piv) →
      (∃ t, t ≤ hi ∧ lo ≤ t + 1 ∧ 1 ≤ lo + t ∧ compare (v.arr t) piv ≤ 0) →
      hi + 1 - lo < fuel →
      ∃ w lo', partition_loop compare piv fuel v lo hi = some (w, lo') ∧
        w.len = v.len ∧ w.cap = v.cap ∧ (∀ k, v.len ≤ k → w.arr k = v.arr k) ∧
        w.toList.Perm v.toList ∧ 1 ≤ lo' ∧ lo' < v.len ∧
        (∀ k, k < lo' → compare (w.arr k) piv ≤ 0) ∧
        (∀ k, lo' ≤ k → k < v.len → 0 ≤ compare (w.arr k) piv) := by
  intro fuel
  induction fuel with
  | zero => intro v lo hi _ _ _ _ _ _ _ h; omega
  | succ f ih =>
    intro v lo hi hn hlh hhi ha hb hs ht hf
    obtain ⟨s, hs1, hs2, hs3, hs4⟩ := hs
    obtain ⟨t, ht1, ht2, ht3, ht4⟩ := ht
    obtain ⟨lo1, e1, l1, l2, l3, l4⟩ :=
      scan_lo_spec compare piv v.arr (f + 1) lo s hs1 (by omega) (by omega) (by omega)
    obtain ⟨hi1, e2, r1, r2, r3, r4⟩ :=
      scan_hi_spec compare piv v.arr (f + 1) hi t ht1 (by omega) (by omega) (by omega)
    unfold partition_loop
    simp only [e1, e2]
    by_cases hbr : lo1 ≥ hi1
    · rw [if_pos hbr]
      refine ⟨v, lo1, rfl, rfl, rfl, fun _ _ => rfl, List.Perm.refl _, by omega, by omega, ?_, ?_⟩
      · intro k hk
        by_cases hk2 : k < lo
        · exact ha k hk2
        · exact le_of_lt (l4 k (by omega) hk)
      · intro k hk1 hk2
        by_cases hk3 : hi < k
        · exact hb k hk3 hk2
        · by_cases hk4 : hi1 < k
          · exact le_of_lt (r4 k hk4 (by omega))
          · have : k = lo1 := by omega
            subst this; omega
    · rw [if_neg hbr, swap_ok v lo1 hi1 (by omega) (by omega),
        sz_add_eq (by omega), sz_sub_eq (by omega) (by omega)]
      have hlt : lo1 < hi1 := by omega
      have hne : lo1 ≠ hi1 := by omega
      obtain ⟨w, lo', e, w1, w2, w3, w4, w5, w6, w7, w8⟩ :=
        ih ⟨v.len, v.cap, Function.update (Function.update v.arr lo1 (v.arr hi1)) hi1 (v.arr lo1)⟩
          (lo1 + 1) (hi1 - 1) hn (by omega) (by simp only; omega)
          (by
            intro k hk
            simp only [Function.update_apply]
            by_cases k1 : k = hi1
            · omega
            · rw [if_neg k1]
              by_cases k2 : k = lo1
              · rw [if_pos k2]; omega
              · rw [if_neg k2]
                by_cases hk2 : k < lo
                · exact ha k hk2
                · exact le_of_lt (l4 k (by omega) (by omega)))
          (by
            intro k hk hkn
            simp only at hkn
            simp only [Function.update_apply]
            by_cases k1 : k = hi1
            · rw [if_pos k1]; omega
            · rw [if_neg k1]
              by_cases k2 : k = lo1
              · omega
              · rw [if_neg k2]
                by_cases hk3 : hi < k
                · exact hb k hk3 hkn
                · exact le_of_lt (r4 k (by omega) (by omega)))
          ⟨hi1, by omega, by omega, by simp only; omega, by
            simp only [Function.update_apply, if_true]; omega⟩
          ⟨lo1, by omega, by omega, by omega, by
            simp only [Function.update_apply, if_neg hne, if_true]; omega⟩
          (by omega)
      refine ⟨w, lo', e, w1, w2, ?_, ?_, w5, w6, w7, w8⟩
      · intro k hk
        rw [w3 k hk]
        simp only [Function.update_apply]
        rw [if_neg (by omega), if_neg (by omega)]
      · refine w4.trans ?_
        exact map_range_swap_perm v.arr v.len lo1 hi1 (by omega) (by omega)

theorem mem_toList {v : Vec α} {x : α} : x ∈ v.toList ↔ ∃ k, k < v.len ∧ v.arr k = x := by
  simp [Vec.toList]

theorem map_range_split (f : Nat → α) (lo n : Nat) (h : lo ≤ n) :
    (List.range n).map f
      = (List.range lo).map f ++ (List.range (n - lo)).map (fun k => f (lo + k)) := by
  have hn : n = lo + (n - lo) := by omega
  conv_lhs => rw [hn, List.range_add, List.map_append, List.map_map]
  rfl

theorem map_range_congr (f g : Nat → α) (n : Nat) (h : ∀ k, k < n → f k = g k) :
    (List.range n).map f = (List.range n).map g := by
  apply List.map_congr_left
  intro k hk
  exact h k (List.mem_range.1 hk)

theorem quicksort_spec (compare : α → α → Int) (hc : TotalCmp compare) :
    ∀ (fuel : Nat) (v : Vec α), v.len < SIZE_MOD → v.len < fuel →
      ∃ v', quicksort compare fuel v = some v' ∧ v'.len = v.len ∧ v'.cap = v.cap ∧
        (∀ k, v.len ≤ k → v'.arr k = v.arr k) ∧ v'.toList.Perm v.toList ∧
        (∀ i, 1 ≤ i → i < v.len → compare (v'.arr (i - 1)) (v'.arr i) ≤ 0) := by
  intro fuel
  induction fuel with
  | zero => intro v _ h; omega
  | succ f ih =>
    intro v hn hf
    unfold quicksort
    by_cases h2 : v.len < 2
    · rw [if_pos h2]
      exact ⟨v, rfl, rfl, rfl, fun _ _ => rfl, List.Perm.refl _, fun i h1 h3 => by omega⟩
    · rw [if_neg h2]
      have hmid : v.len / 2 < v.len := by omega
      have hmid1 : 1 ≤ v.len / 2 := by omega
      obtain ⟨w, lo, e, w1, w2, w3, w4, w5, w6, w7, w8⟩ :=
        partition_loop_spec compare (v.arr (v.len / 2)) (f + 1) v 0 (sz_sub v.len 1) hn
          (by omega) (by rw [sz_sub_eq (by omega) hn]; omega)
          (fun k hk => by omega)
          (fun k hk hk2 => by rw [sz_sub_eq (by omega) hn] at hk; omega)
          ⟨v.len / 2, by omega, by rw [sz_sub_eq (by omega) hn]; omega, hmid,
            by rw [hc.refl_eq]⟩
          ⟨v.len / 2, by rw [sz_sub_eq (by omega) hn]; omega, by omega, by omega,
            by rw [hc.refl_eq]⟩
          (by rw [sz_sub_eq (by omega) hn]; omega)
      simp only [e]
      obtain ⟨v1', e1, a1, a2, a3, a4, a5⟩ :=
        ih ⟨lo, w.cap, w.arr⟩ (by simp only; omega) (by simp only; omega)
      simp only at a1 a3 a5
      simp only [e1]
      rw [w1, sz_sub_eq (by omega) hn]
      obtain ⟨v2', e2, b1, b2, b3, b4, b5⟩ :=
        ih ⟨v.len - lo, w.cap, fun k => v1'.arr (lo + k)⟩ (by simp only; omega)
          (by simp only; omega)
      simp only at b1 b3 b5
      simp only [e2]
      refine ⟨_, rfl, rfl, w2, ?_, ?_, ?_⟩
      · intro k hk
        simp only
        rw [if_neg (by omega), b3 (k - lo) (by omega), ← w3 k hk, ← a3 k (by omega)]
        congr 1; omega
      · refine List.Perm.trans ?_ w4
        simp only [Vec.toList, w1]
        rw [map_range_split _ lo v.len (by omega), map_range_split w.arr lo v.len (by omega)]
        apply List.Perm.append
        · have h1 : (List.range lo).map
              (fun k => if k < lo then v1'.arr k else v2'.arr (k - lo)) = v1'.toList := by
            simp only [Vec.toList, a1]
            exact map_range_congr _ _ _ (fun k hk => by simp only [if_pos hk])
          rw [h1]
          exact a4
        · have h1 : (List.range (v.len - lo)).map
              (fun k => (fun k => if k < lo then v1'.arr k else v2'.arr (k - lo)) (lo + k))
              = v2'.toList := by
            simp only [Vec.toList, b1]
            exact map_range_congr _ _ _ (fun k hk => by
              simp only [if_neg (show ¬ lo + k < lo by omega), Nat.add_sub_cancel_left])
          rw [h1]
          refine b4.trans ?_
          simp only [Vec.toList]
          exact List.Perm.of_eq (map_range_congr _ _ _ (fun k hk => a3 (lo + k) (by omega)))
      · intro i hi1 hi2
        simp only
        by_cases c1 : i < lo
        · rw [if_pos c1, if_pos (by omega)]
          exact a5 i hi1 c1
        · by_cases c2 : i = lo
          · subst c2
            rw [if_pos (by omega), if_neg (by omega), Nat.sub_self]
            have m1 : v1'.arr (i - 1) ∈ v1'.toList := mem_toList.2 ⟨i - 1, by omega, rfl⟩
            obtain ⟨k1, hk1, ek1⟩ := mem_toList.1 (a4.subset m1)
            have m2 : v2'.arr 0 ∈ v2'.toList := mem_toList.2 ⟨0, by omega, rfl⟩
            obtain ⟨k2, hk2, ek2⟩ := mem_toList.1 (b4.subset m2)
            simp only at hk1 ek1 hk2 ek2
            rw [a3 (i + k2) (by omega)] at ek2
            rw [← ek1, ← ek2]
            exact hc.trans _ _ _ (w7 k1 hk1) (hc.flip (w8 (i + k2) (by omega) (by omega)))
          · rw [if_neg (by omega), if_neg (by omega)]
            have := b5 (i - lo) (by omega) (by omega)
            have e3 : i - 1 - lo = i - lo - 1 := by omega
            rw [e3]; exact this

theorem int_compare_total : TotalCmp int_compare := by
  constructor
  · intro a b
    unfold int_compare
    split_ifs <;> omega
  · intro a b c
    unfold int_compare
    split_ifs <;> omega

/-- Claim C1: for every vector (its `len` a `size_t` value) and every three-way
comparator that is a total, consistent ordering, `quicksort(v, compare)` returns
(any fuel above `len` is enough) and afterwards the live range, which has the
length it had before the call and holds the elements it held before the call,
is sorted: for every `i` with `1 ≤ i < len`, `len` being the length of the
vector passed in, `compare(arr[i-1], arr[i]) ≤ 0`. -/
theorem quicksort_sorted (compare : α → α → Int) (hc : TotalCmp compare) (v : Vec α)
    (hlen : v.len < SIZE_MOD) (fuel : Nat) (hfuel : v.len < fuel) :
    ∃ w, quicksort compare fuel v = some w ∧ w.len = v.len ∧ w.toList.Perm v.toList ∧
      (∀ i, 1 ≤ i → i < v.len → compare (w.arr (i - 1)) (w.arr i) ≤ 0) ∧
      List.Chain' (fun a b => compare a b ≤ 0) w.toList := by
  obtain ⟨w, e, h1, _, _, h4, h5⟩ := quicksort_spec compare hc fuel v hlen hfuel
  refine ⟨w, e, h1, h4, h5, ?_⟩
  rw [List.chain'_iff_get]
  intro i hi
  have hl : w.toList.length = v.len := by simp [Vec.toList, h1]
  have h := h5 (i + 1) (by omega) (by omega)
  simpa [Vec.toList] using h

theorem quicksort_sorted_witness :
    TotalCmp int_compare ∧ (ofList [3, 1, 2] : Vec Int).len < SIZE_MOD ∧
      (ofList [3, 1, 2] : Vec Int).len < 4 ∧
      ∃ w, quicksort int_compare 4 (ofList [3, 1, 2]) = some w ∧
        w.len = (ofList [3, 1, 2] : Vec Int).len ∧
        w.toList.Perm (ofList [3, 1, 2] : Vec Int).toList ∧
        (∀ i, 1 ≤ i → i < (ofList [3, 1, 2] : Vec Int).len →
          int_compare (w.arr (i - 1)) (w.arr i) ≤ 0) ∧
        List.Chain' (fun a b => int_compare a b ≤ 0) w.toList :=
  ⟨int_compare_total, by decide, by decide,
    quicksort_sorted int_compare int_compare_total (ofList [3, 1, 2]) (by decide) 4 (by decide)⟩

/-- Claim C2: for every vector (its `len` a `size_t` value) and every total,
consistent three-way comparator, `quicksort(v, compare)` returns (any fuel above
`len` is enough), leaves `len` (and `cap`) unchanged, and the live range after
the call is a permutation of the live range before it. -/
theorem quicksort_perm (compare : α → α → Int) (hc : TotalCmp compare) (v : Vec α)
    (hlen : v.len < SIZE_MOD) (fuel : Nat) (hfuel : v.len < fuel) :
    ∃ w, quicksort compare fuel v = some w ∧ w.len = v.len ∧ w.cap = v.cap ∧
      w.toList.Perm v.toList := by
  obtain ⟨w, e, h1, h2, _, h4, _⟩ := quicksort_spec compare hc fuel v hlen hfuel
  exact ⟨w, e, h1, h2, h4⟩

theorem quicksort_perm_witness :
    TotalCmp int_compare ∧ (ofList [2, 5, 2, 1] : Vec Int).len < SIZE_MOD ∧
      (ofList [2, 5, 2, 1] : Vec Int).len < 5 ∧
      ∃ w, quicksort int_compare 5 (ofList [2, 5, 2, 1]) = some w ∧
        w.len = (ofList [2, 5, 2, 1] : Vec Int).len ∧
        w.cap = (ofList [2, 5, 2, 1] : Vec Int).cap ∧
        w.toList.Perm (ofList [2, 5, 2, 1] : Vec Int).toList :=
  ⟨int_compare_total, by decide, by decide,
    quicksort_perm int_compare int_compare_total (ofList [2, 5, 2, 1]) (by decide) 5 (by decide)⟩

/-! ## Push and pop -/


theorem expand_some [BaseT α] (fresh : Nat → α) (v : Vec α) (n : Nat) :
    (expand (Alloc.block fresh) v n).ret = 0 ∧ (expand (Alloc.block fresh) v n).vec.len = v.len ∧
      (∀ k, k < v.cap → (expand (Alloc.block fresh) v n).vec.arr k = v.arr k) ∧
      v.cap ≤ (expand (Alloc.block fresh) v n).vec.cap ∧
      round_up n ≤ (expand (Alloc.block fresh) v n).vec.cap := by
  by_cases h : round_up n ≤ v.cap
  · have e : expand (Alloc.block fresh) v n = ⟨0, none, none, v⟩ := by
      simp only [expand, if_pos h]
    rw [e]
    exact ⟨rfl, rfl, fun _ _ => rfl, le_refl _, h⟩
  · have e : expand (Alloc.block fresh) v n = ⟨0, none, none,
        ⟨v.len, round_up n, fun k => if k < v.cap then v.arr k else fresh k⟩⟩ := by
      simp only [expand, if_neg h]
    rw [e]
    exact ⟨rfl, rfl, fun k hk => if_pos hk, le_of_lt (not_le.1 h), le_refl _⟩

theorem toList_snoc (v w : Vec α) (hl : w.len = v.len + 1)
    (ha : ∀ k, k < v.len → w.arr k = v.arr k) : w.toList = v.toList ++ [w.arr v.len] := by
  simp only [Vec.toList, hl, List.range_succ, List.map_append, List.map_cons, List.map_nil]
  rw [map_range_congr _ _ _ ha]

theorem push_some [BaseT α] (fresh : Nat → α) (v : Vec α) (x : α) (h : v.len + 1 < SIZE_MOD) :
    (push (Alloc.block fresh) v x).ret = 0 ∧ (push (Alloc.block fresh) v x).vec.len = v.len + 1 ∧
      (push (Alloc.block fresh) v x).vec.arr v.len = x ∧
      (∀ k, k < v.len → (push (Alloc.block fresh) v x).vec.arr k = v.arr k) := by
  obtain ⟨e1, e2, e3, _, _⟩ := expand_some fresh v (sz_add v.len 1)
  unfold push
  by_cases hc : v.len = v.cap
  · simp only [if_pos hc, e1, ne_eq, not_true_eq_false, if_false, push_store, e2]
    refine ⟨trivial, sz_add_eq h, by simp, ?_⟩
    intro k hk
    rw [Function.update_noteq (by omega)]
    exact e3 k (by omega)
  · simp only [if_neg hc, push_store]
    refine ⟨trivial, sz_add_eq h, by simp, ?_⟩
    intro k hk
    rw [Function.update_noteq (by omega)]

theorem push_all_spec [BaseT α] : ∀ (ps : List ((Nat → α) × α)) (v : Vec α),
    v.len + ps.length < SIZE_MOD →
      ∃ w, push_all v ps = some w ∧ w.len = v.len + ps.length ∧
        w.toList = v.toList ++ ps.map Prod.snd := by
  intro ps
  induction ps with
  | nil => intro v _; exact ⟨v, rfl, rfl, by simp⟩
  | cons p rest ih =>
    intro v h
    obtain ⟨fresh, x⟩ := p
    simp only [List.length_cons] at h
    obtain ⟨e1, e2, e3, e4⟩ := push_some fresh v x (by omega)
    obtain ⟨w, f1, f2, f3⟩ := ih (push (Alloc.block fresh) v x).vec (by omega)
    refine ⟨w, ?_, ?_, ?_⟩
    · simp only [push_all, e1, if_true]; exact f1
    · rw [f2, e2, List.length_cons]; omega
    · rw [f3, toList_snoc v _ e2 e4, e3]; simp

theorem pop_n_spec : ∀ (n : Nat) (v : Vec α), v.len < SIZE_MOD → n ≤ v.len →
    ∃ w, pop_n n v = some (v.toList.reverse.take n, w) ∧ w.len = v.len - n ∧
      w.cap = v.cap ∧ w.arr = v.arr := by
  intro n
  induction n with
  | zero => intro v _ _; exact ⟨v, by simp [pop_n], rfl, rfl, rfl⟩
  | succ m ih =>
    intro v hv hn
    have hne : v.len ≠ 0 := by omega
    have hs : sz_sub v.len 1 = v.len - 1 := sz_sub_eq (by omega) hv
    obtain ⟨w, f1, f2, f3, f4⟩ := ih ⟨v.len - 1, v.cap, v.arr⟩ (by simp only; omega)
      (by simp only; omega)
    have hl : v.toList = (⟨v.len - 1, v.cap, v.arr⟩ : Vec α).toList ++ [v.arr (v.len - 1)] :=
      toList_snoc ⟨v.len - 1, v.cap, v.arr⟩ v (by simp only; omega) (fun _ _ => rfl)
    refine ⟨w, ?_, by rw [f2]; simp only; omega, f3, f4⟩
    simp only [pop_n, pop, if_neg hne, if_true, hs, f1]
    rw [hl]
    simp

/-- Claim C3: for every list of values pushed in order onto a vector in the zero
state, all allocations succeeding (the number `n` of values a `size_t`), the
pushes succeed, then `n` successive pops succeed and return the values in
reverse push order, the vector then has length 0, and the next pop fails with
`-1` and `ERANGE`, stores nothing and leaves the vector unchanged. -/
theorem push_pop_duality [BaseT α] (junk : Nat → α) (ps : List ((Nat → α) × α))
    (hn : ps.length < SIZE_MOD) :
    ∃ v w, push_all (init junk) ps = some v ∧
      pop_n ps.length v = some ((ps.map Prod.snd).reverse, w) ∧ w.len = 0 ∧
      pop w true = ⟨-1, some Errno.ERANGE, none, w⟩ := by
  obtain ⟨v, e1, e2, e3⟩ := push_all_spec ps (init junk) (by simpa [init] using hn)
  have hl : v.len = ps.length := by rw [e2]; simp [init]
  have ht : v.toList = ps.map Prod.snd := by rw [e3]; simp [init, Vec.toList]
  obtain ⟨w, f1, f2, _, _⟩ := pop_n_spec ps.length v (by omega) (by omega)
  have hw : w.len = 0 := by omega
  refine ⟨v, w, e1, ?_, hw, ?_⟩
  · rw [f1, ht, List.take_of_length_le (by simp)]
  · simp only [pop, if_pos hw]

theorem push_pop_duality_witness :
    ([((fun _ => 0), 5), ((fun _ => 0), 7)] : List ((Nat → Int) × Int)).length < SIZE_MOD ∧
    ∃ v w, push_all (init (fun _ => (0 : Int))) [((fun _ => 0), 5), ((fun _ => 0), 7)] = some v ∧
      pop_n ([((fun _ => 0), 5), ((fun _ => 0), 7)] : List ((Nat → Int) × Int)).length v
        = some ((([((fun _ => 0), 5), ((fun _ => 0), 7)] :
            List ((Nat → Int) × Int)).map Prod.snd).reverse, w) ∧
      w.len = 0 ∧ pop w true = ⟨-1, some Errno.ERANGE, none, w⟩ :=
  ⟨by decide, push_pop_duality (fun _ => (0 : Int)) [((fun _ => 0), 5), ((fun _ => 0), 7)]
    (by decide)⟩

/-! ## Insertion and removal -/


theorem toList_take_drop (v : Vec α) (i : Nat) (hi : i ≤ v.len) :
    v.toList.take i = (List.range i).map v.arr ∧
      v.toList.drop i = (List.range (v.len - i)).map (fun k => v.arr (i + k)) := by
  have h := map_range_split v.arr i v.len hi
  have hl : ((List.range i).map v.arr).length = i := by simp
  unfold Vec.toList
  rw [h]
  constructor
  · exact List.take_left' hl
  · exact List.drop_left' hl

theorem toList_insert_of_slots (v w : Vec α) (i : Nat) (x : α) (hi : i ≤ v.len)
    (hl : w.len = v.len + 1) (h1 : ∀ k, k < i → w.arr k = v.arr k) (h2 : w.arr i = x)
    (h3 : ∀ j, i ≤ j → j < v.len → w.arr (j + 1) = v.arr j) :
    w.toList = v.toList.take i ++ x :: v.toList.drop i := by
  obtain ⟨t, d⟩ := toList_take_drop v i hi
  rw [t, d]
  unfold Vec.toList
  rw [hl, map_range_split w.arr i (v.len + 1) (by omega), map_range_congr _ _ _ h1]
  congr 1
  have e : v.len + 1 - i = (v.len - i) + 1 := by omega
  rw [e, List.range_succ_eq_map, List.map_cons, List.map_map, Nat.add_zero, h2]
  congr 1
  apply map_range_congr
  intro k hk
  simp only [Function.comp]
  have := h3 (i + k) (by omega) (by omega)
  rw [← this]
  rfl

theorem toList_erase_of_slots (v w : Vec α) (i : Nat) (hi : i < v.len)
    (hl : w.len = v.len - 1) (h1 : ∀ k, k < i → w.arr k = v.arr k)
    (h3 : ∀ j, i ≤ j → j < v.len - 1 → w.arr j = v.arr (j + 1)) :
    w.toList = v.toList.take i ++ v.toList.drop (i + 1) := by
  obtain ⟨t, _⟩ := toList_take_drop v i (by omega)
  obtain ⟨_, d⟩ := toList_take_drop v (i + 1) (by omega)
  rw [t, d]
  unfold Vec.toList
  rw [hl, map_range_split w.arr i (v.len - 1) (by omega), map_range_congr _ _ _ h1]
  congr 1
  have e : v.len - (i + 1) = v.len - 1 - i := by omega
  rw [e]
  apply map_range_congr
  intro k hk
  have := h3 (i + k) (by omega) (by omega)
  rw [this]
  congr 1
  omega

theorem set_len_some [BaseT α] (fresh : Nat → α) (v : Vec α) (n : Nat) :
    (set_len (Alloc.block fresh) v n).ret = 0 ∧ (set_len (Alloc.block fresh) v n).vec.len = n ∧
      (∀ k, k < v.cap → (set_len (Alloc.block fresh) v n).vec.arr k = v.arr k) ∧
      v.cap ≤ (set_len (Alloc.block fresh) v n).vec.cap ∧
      (n ≤ v.cap ∨ round_up n ≤ (set_len (Alloc.block fresh) v n).vec.cap) := by
  obtain ⟨e1, e2, e3, e4, e5⟩ := expand_some fresh v n
  by_cases h : n > v.cap
  · have e : set_len (Alloc.block fresh) v n = ⟨0, (expand (Alloc.block fresh) v n).errno, none,
        ⟨n, (expand (Alloc.block fresh) v n).vec.cap, (expand (Alloc.block fresh) v n).vec.arr⟩⟩ := by
      simp only [set_len, if_pos h, e1, ne_eq, not_true_eq_false, if_false]
    rw [e]
    exact ⟨rfl, rfl, e3, e4, Or.inr e5⟩
  · have e : set_len (Alloc.block fresh) v n = ⟨0, none, none, ⟨n, v.cap, v.arr⟩⟩ := by
      simp only [set_len, if_neg h]
    rw [e]
    exact ⟨rfl, rfl, fun _ _ => rfl, le_refl _, Or.inl (by omega)⟩

theorem VECTOR_MAX_len (n i : Nat) (hi : i ≤ n) : VECTOR_MAX n i = n := by
  unfold VECTOR_MAX
  split_ifs <;> omega

theorem insert_some [BaseT α] (fresh : Nat → α) (v : Vec α) (i : Nat) (x : α) (hi : i ≤ v.len)
    (hfit : v.len + 1 < SIZE_MOD) :
    insert (Alloc.block fresh) v i x = ⟨0, none, none,
      ⟨v.len + 1, (set_len (Alloc.block fresh) v (v.len + 1)).vec.cap,
        Function.update
          (memmove (set_len (Alloc.block fresh) v (v.len + 1)).vec.arr (i + 1) i (v.len - i)) i x⟩⟩ := by
  obtain ⟨e1, e2, _, _, _⟩ := set_len_some fresh v (v.len + 1)
  have hi' : ¬ i > v.len := by omega
  simp only [insert, if_neg hi', VECTOR_MAX_len v.len i hi, sz_add_eq hfit, e1, ne_eq,
    not_true_eq_false, if_false, e2, sz_add_eq (show i + 1 < SIZE_MOD by omega),
    sz_sub_eq (show 1 ≤ v.len + 1 by omega) hfit, Nat.add_sub_cancel,
    sz_sub_eq hi (show v.len < SIZE_MOD by omega)]

theorem insert_fast_some [BaseT α] (fresh : Nat → α) (v : Vec α) (i : Nat) (x : α) (hi : i ≤ v.len)
    (hfit : v.len + 1 < SIZE_MOD) :
    insert_fast (Alloc.block fresh) v i x = ⟨0, none, none,
      ⟨v.len + 1, (set_len (Alloc.block fresh) v (v.len + 1)).vec.cap,
        Function.update
          (Function.update (set_len (Alloc.block fresh) v (v.len + 1)).vec.arr v.len
            ((set_len (Alloc.block fresh) v (v.len + 1)).vec.arr i)) i x⟩⟩ := by
  obtain ⟨e1, e2, _, _, _⟩ := set_len_some fresh v (v.len + 1)
  have hi' : ¬ i > v.len := by omega
  simp only [insert_fast, if_neg hi', VECTOR_MAX_len v.len i hi, sz_add_eq hfit, e1, ne_eq,
    not_true_eq_false, if_false, e2,
    sz_sub_eq (show 1 ≤ v.len + 1 by omega) hfit, Nat.add_sub_cancel]

theorem remove_ok (v : Vec α) (i : Nat) (hi : i < v.len) (hsz : v.len < SIZE_MOD) :
    remove v i true = ⟨0, none, some (v.arr i),
      ⟨v.len - 1, v.cap, memmove v.arr i (i + 1) (v.len - i)⟩⟩ := by
  have hi' : ¬ i ≥ v.len := by omega
  simp only [remove, if_neg hi', if_true, sz_add_eq (show i + 1 < SIZE_MOD by omega),
    sz_sub_eq (show i ≤ v.len by omega) hsz, sz_sub_eq (show 1 ≤ v.len by omega) hsz]

theorem remove_fast_ok (v : Vec α) (i : Nat) (hi : i < v.len) (hsz : v.len < SIZE_MOD) :
    remove_fast v i true = ⟨0, none, some (v.arr i),
      ⟨v.len - 1, v.cap, Function.update v.arr i (v.arr (v.len - 1))⟩⟩ := by
  have hi' : ¬ i ≥ v.len := by omega
  simp only [remove_fast, if_neg hi', if_true, sz_sub_eq (show 1 ≤ v.len by omega) hsz]

theorem insert_slots [BaseT α] (fresh : Nat → α) (v : Vec α) (i : Nat) (x : α)
    (hcap : v.len ≤ v.cap) (hi : i ≤ v.len) (hfit : v.len + 1 < SIZE_MOD) :
    (insert (Alloc.block fresh) v i x).ret = 0 ∧
      (insert (Alloc.block fresh) v i x).vec.len = v.len + 1 ∧
      (∀ k, k < i → (insert (Alloc.block fresh) v i x).vec.arr k = v.arr k) ∧
      (insert (Alloc.block fresh) v i x).vec.arr i = x ∧
      (∀ j, i ≤ j → j < v.len → (insert (Alloc.block fresh) v i x).vec.arr (j + 1) = v.arr j) ∧
      (insert (Alloc.block fresh) v i x).vec.toList = v.toList.take i ++ x :: v.toList.drop i := by
  obtain ⟨_, _, e3, _, _⟩ := set_len_some fresh v (v.len + 1)
  have h1 : ∀ k, k < i → (insert (Alloc.block fresh) v i x).vec.arr k = v.arr k := by
    intro k hk
    rw [insert_some fresh v i x hi hfit]
    simp only
    rw [Function.update_noteq (by omega)]
    simp only [memmove]
    rw [if_neg (by omega)]
    exact e3 k (by omega)
  have h2 : (insert (Alloc.block fresh) v i x).vec.arr i = x := by
    rw [insert_some fresh v i x hi hfit]
    simp only [Function.update_same]
  have h3 : ∀ j, i ≤ j → j < v.len →
      (insert (Alloc.block fresh) v i x).vec.arr (j + 1) = v.arr j := by
    intro j hj1 hj2
    rw [insert_some fresh v i x hi hfit]
    simp only
    rw [Function.update_noteq (by omega)]
    simp only [memmove]
    rw [if_pos (by omega), e3 _ (by omega)]
    congr 1
    omega
  have hl : (insert (Alloc.block fresh) v i x).vec.len = v.len + 1 := by
    rw [insert_some fresh v i x hi hfit]
  refine ⟨by rw [insert_some fresh v i x hi hfit], hl, h1, h2, h3, ?_⟩
  exact toList_insert_of_slots v _ i x hi hl h1 h2 h3

/-- Claim C4: for every vector with `len ≤ cap`, every `i ≤ len` and every `x`
(with `len + 1` representable in `size_t`, as it is for any storage that can
exist), when the allocation succeeds `insert(v, i, x)`
returns 0 and the new live sequence is the old one with `x` inserted at
position `i`: `len` grows by one, slots `[0, i)` are unchanged, slot `i` holds
`x`, and for every `j` in `[i, old_len)` the new slot `j + 1` holds the old slot
`j`. -/
theorem insert_spec [BaseT α] (fresh : Nat → α) (v : Vec α) (i : Nat) (x : α)
    (hcap : v.len ≤ v.cap) (hi : i ≤ v.len) (hfit : v.len + 1 < SIZE_MOD) :
    (insert (Alloc.block fresh) v i x).ret = 0 ∧
      (insert (Alloc.block fresh) v i x).vec.len = v.len + 1 ∧
      (∀ k, k < i → (insert (Alloc.block fresh) v i x).vec.arr k = v.arr k) ∧
      (insert (Alloc.block fresh) v i x).vec.arr i = x ∧
      (∀ j, i ≤ j → j < v.len → (insert (Alloc.block fresh) v i x).vec.arr (j + 1) = v.arr j) ∧
      (insert (Alloc.block fresh) v i x).vec.toList = v.toList.take i ++ x :: v.toList.drop i :=
  insert_slots fresh v i x hcap hi hfit

theorem insert_spec_witness :
    (ofList [10, 20, 30] : Vec Int).len ≤ (ofList [10, 20, 30] : Vec Int).cap ∧
      1 ≤ (ofList [10, 20, 30] : Vec Int).len ∧
      (ofList [10, 20, 30] : Vec Int).len + 1 < SIZE_MOD ∧
      (insert (Alloc.block fun _ => 0) (ofList [10, 20, 30] : Vec Int) 1 7).ret = 0 ∧
      (insert (Alloc.block fun _ => 0) (ofList [10, 20, 30] : Vec Int) 1 7).vec.len
        = (ofList [10, 20, 30] : Vec Int).len + 1 ∧
      (∀ k, k < 1 → (insert (Alloc.block fun _ => 0) (ofList [10, 20, 30] : Vec Int) 1 7).vec.arr k
        = (ofList [10, 20, 30] : Vec Int).arr k) ∧
      (insert (Alloc.block fun _ => 0) (ofList [10, 20, 30] : Vec Int) 1 7).vec.arr 1 = 7 ∧
      (∀ j, 1 ≤ j → j < (ofList [10, 20, 30] : Vec Int).len →
        (insert (Alloc.block fun _ => 0) (ofList [10, 20, 30] : Vec Int) 1 7).vec.arr (j + 1)
          = (ofList [10, 20, 30] : Vec Int).arr j) ∧
      (insert (Alloc.block fun _ => 0) (ofList [10, 20, 30] : Vec Int) 1 7).vec.toList
        = (ofList [10, 20, 30] : Vec Int).toList.take 1
          ++ 7 :: (ofList [10, 20, 30] : Vec Int).toList.drop 1 :=
  ⟨by decide, by decide, by decide,
    insert_spec (fun _ => 0) (ofList [10, 20, 30]) 1 7 (by decide) (by decide) (by decide)⟩

theorem remove_slots (v : Vec α) (i : Nat) (hi : i < v.len) (hsz : v.len < SIZE_MOD) :
    (remove v i true).ret = 0 ∧ (remove v i true).out = some (v.arr i) ∧
      (remove v i true).vec.len = v.len - 1 ∧ (remove v i true).vec.cap = v.cap ∧
      (∀ k, k < i → (remove v i true).vec.arr k = v.arr k) ∧
      (∀ j, i ≤ j → j < v.len - 1 → (remove v i true).vec.arr j = v.arr (j + 1)) ∧
      (remove v i true).vec.toList = v.toList.take i ++ v.toList.drop (i + 1) := by
  have h1 : ∀ k, k < i → (remove v i true).vec.arr k = v.arr k := by
    intro k hk
    rw [remove_ok v i hi hsz]
    simp only [memmove]
    rw [if_neg (by omega)]
  have h3 : ∀ j, i ≤ j → j < v.len - 1 → (remove v i true).vec.arr j = v.arr (j + 1) := by
    intro j hj1 hj2
    rw [remove_ok v i hi hsz]
    simp only [memmove]
    rw [if_pos (by omega)]
    congr 1
    omega
  have hl : (remove v i true).vec.len = v.len - 1 := by rw [remove_ok v i hi hsz]
  refine ⟨by rw [remove_ok v i hi hsz], by rw [remove_ok v i hi hsz], hl,
    by rw [remove_ok v i hi hsz], h1, h3, ?_⟩
  exact toList_erase_of_slots v _ i hi hl h1 h3

/-- Claim C5: for every vector (its `len` a `size_t`) and every `i < len`,
`remove(v, i, out)` returns 0, stores the old element at `i` in `out`, decrements
`len` by one, leaves `cap` unchanged, and the new live sequence is the old one
with position `i` erased: slots `[0, i)` are unchanged and for every `j` in
`[i, old_len - 1)` the new slot `j` holds the old slot `j + 1`. -/
theorem remove_spec (v : Vec α) (i : Nat) (hi : i < v.len) (hsz : v.len < SIZE_MOD) :
    (remove v i true).ret = 0 ∧ (remove v i true).out = some (v.arr i) ∧
      (remove v i true).vec.len = v.len - 1 ∧ (remove v i true).vec.cap = v.cap ∧
      (∀ k, k < i → (remove v i true).vec.arr k = v.arr k) ∧
      (∀ j, i ≤ j → j < v.len - 1 → (remove v i true).vec.arr j = v.arr (j + 1)) ∧
      (remove v i true).vec.toList = v.toList.take i ++ v.toList.drop (i + 1) :=
  remove_slots v i hi hsz

theorem remove_spec_witness :
    1 < (ofList [10, 20, 30] : Vec Int).len ∧ (ofList [10, 20, 30] : Vec Int).len < SIZE_MOD ∧
      (remove (ofList [10, 20, 30] : Vec Int) 1 true).ret = 0 ∧
      (remove (ofList [10, 20, 30] : Vec Int) 1 true).out
        = some ((ofList [10, 20, 30] : Vec Int).arr 1) ∧
      (remove (ofList [10, 20, 30] : Vec Int) 1 true).vec.len
        = (ofList [10, 20, 30] : Vec Int).len - 1 ∧
      (remove (ofList [10, 20, 30] : Vec Int) 1 true).vec.cap
        = (ofList [10, 20, 30] : Vec Int).cap ∧
      (∀ k, k < 1 → (remove (ofList [10, 20, 30] : Vec Int) 1 true).vec.arr k
        = (ofList [10, 20, 30] : Vec Int).arr k) ∧
      (∀ j, 1 ≤ j → j < (ofList [10, 20, 30] : Vec Int).len - 1 →
        (remove (ofList [10, 20, 30] : Vec Int) 1 true).vec.arr j
          = (ofList [10, 20, 30] : Vec Int).arr (j + 1)) ∧
      (remove (ofList [10, 20, 30] : Vec Int) 1 true).vec.toList
        = (ofList [10, 20, 30] : Vec Int).toList.take 1
          ++ (ofList [10, 20, 30] : Vec Int).toList.drop (1 + 1) :=
  ⟨by decide, by decide, remove_spec (ofList [10, 20, 30]) 1 (by decide) (by decide)⟩

theorem SIZE_MOD_eq : SIZE_MOD = 2 ^ 64 := rfl

theorem le_or_shift (x k : Nat) : x ≤ x ||| (x >>> k) := by
  apply Nat.le_of_testBit
  intro i hi
  rw [Nat.testBit_or, hi, Bool.true_or]

theorem or_shift_lt (x k : Nat) (h : x < 2 ^ 63) : x ||| (x >>> k) < 2 ^ 63 := by
  apply Nat.or_lt_two_pow h
  rw [Nat.shiftRight_eq_div_pow]
  exact lt_of_le_of_lt (Nat.div_le_self _ _) h

theorem round_up_ge (n : Nat) (h : 2 * n ≤ SIZE_MOD) : n ≤ round_up n := by
  rw [SIZE_MOD_eq] at h
  by_cases h0 : n = 0
  · omega
  · obtain ⟨n0, rfl⟩ := Nat.exists_eq_succ_of_ne_zero h0
    have hn : n0 + 1 < SIZE_MOD := by rw [SIZE_MOD_eq]; omega
    unfold round_up
    simp only
    rw [sz_sub_eq (show 1 ≤ n0 + 1 by omega) hn, Nat.add_sub_cancel]
    have b0 : n0 < 2 ^ 63 := by omega
    have a1 := le_or_shift n0 1
    have b1 := or_shift_lt n0 1 b0
    generalize n0 ||| (n0 >>> 1) = n1 at a1 b1 ⊢
    have a2 := le_or_shift n1 2
    have b2 := or_shift_lt n1 2 b1
    generalize n1 ||| (n1 >>> 2) = n2 at a2 b2 ⊢
    have a3 := le_or_shift n2 4
    have b3 := or_shift_lt n2 4 b2
    generalize n2 ||| (n2 >>> 4) = n3 at a3 b3 ⊢
    have a4 := le_or_shift n3 8
    have b4 := or_shift_lt n3 8 b3
    generalize n3 ||| (n3 >>> 8) = n4 at a4 b4 ⊢
    have a5 := le_or_shift n4 16
    have b5 := or_shift_lt n4 16 b4
    generalize n4 ||| (n4 >>> 16) = n5 at a5 b5 ⊢
    rw [sz_add_eq (by rw [SIZE_MOD_eq]; omega)]
    omega

theorem insert_fast_slots [BaseT α] (fresh : Nat → α) (v : Vec α) (i : Nat) (x : α)
    (hcap : v.len ≤ v.cap) (hi : i ≤ v.len) (hfit : v.len + 1 < SIZE_MOD) :
    (insert_fast (Alloc.block fresh) v i x).ret = 0 ∧
      (insert_fast (Alloc.block fresh) v i x).vec.len = v.len + 1 ∧
      (insert_fast (Alloc.block fresh) v i x).vec.arr i = x ∧
      (i < v.len → (insert_fast (Alloc.block fresh) v i x).vec.arr v.len = v.arr i) ∧
      (∀ k, k < v.len → k ≠ i → (insert_fast (Alloc.block fresh) v i x).vec.arr k = v.arr k) ∧
      (v.len + 1 ≤ v.cap ∨ round_up (v.len + 1) ≤ (insert_fast (Alloc.block fresh) v i x).vec.cap) ∧
      v.cap ≤ (insert_fast (Alloc.block fresh) v i x).vec.cap := by
  obtain ⟨_, _, e3, e4, e5⟩ := set_len_some fresh v (v.len + 1)
  rw [insert_fast_some fresh v i x hi hfit]
  refine ⟨rfl, rfl, by simp only [Function.update_same], ?_, ?_, e5, e4⟩
  · intro hlt
    simp only
    rw [Function.update_noteq (by omega), Function.update_same]
    exact e3 i (by omega)
  · intro k hk hne
    simp only
    rw [Function.update_noteq hne, Function.update_noteq (by omega)]
    exact e3 k (by omega)

/-- Claim C7: for every vector with `len ≤ cap`, every `i < len` and every `x`
(with `len + 1` representable in `size_t`, as it is for any storage that can
exist), when the allocation succeeds `insert_fast(v, i, x)`
returns 0, `len` grows by one, slot `i` holds `x`, the new last slot (index
`old_len`) holds the former occupant of slot `i`, and every other slot in
`[0, old_len)` is unchanged. -/
theorem insert_fast_spec [BaseT α] (fresh : Nat → α) (v : Vec α) (i : Nat) (x : α)
    (hcap : v.len ≤ v.cap) (hi : i < v.len) (hfit : v.len + 1 < SIZE_MOD) :
    (insert_fast (Alloc.block fresh) v i x).ret = 0 ∧
      (insert_fast (Alloc.block fresh) v i x).vec.len = v.len + 1 ∧
      (insert_fast (Alloc.block fresh) v i x).vec.arr i = x ∧
      (insert_fast (Alloc.block fresh) v i x).vec.arr v.len = v.arr i ∧
      (∀ k, k < v.len → k ≠ i → (insert_fast (Alloc.block fresh) v i x).vec.arr k = v.arr k) := by
  obtain ⟨h1, h2, h3, h4, h5, _, _⟩ := insert_fast_slots fresh v i x hcap (le_of_lt hi) hfit
  exact ⟨h1, h2, h3, h4 hi, h5⟩

theorem insert_fast_spec_witness :
    (ofList [10, 20, 30] : Vec Int).len ≤ (ofList [10, 20, 30] : Vec Int).cap ∧
      1 < (ofList [10, 20, 30] : Vec Int).len ∧
      (ofList [10, 20, 30] : Vec Int).len + 1 < SIZE_MOD ∧
      (insert_fast (Alloc.block fun _ => 0) (ofList [10, 20, 30] : Vec Int) 1 7).ret = 0 ∧
      (insert_fast (Alloc.block fun _ => 0) (ofList [10, 20, 30] : Vec Int) 1 7).vec.len
        = (ofList [10, 20, 30] : Vec Int).len + 1 ∧
      (insert_fast (Alloc.block fun _ => 0) (ofList [10, 20, 30] : Vec Int) 1 7).vec.arr 1 = 7 ∧
      (insert_fast (Alloc.block fun _ => 0) (ofList [10, 20, 30] : Vec Int) 1 7).vec.arr
          (ofList [10, 20, 30] : Vec Int).len
        = (ofList [10, 20, 30] : Vec Int).arr 1 ∧
      (∀ k, k < (ofList [10, 20, 30] : Vec Int).len → k ≠ 1 →
        (insert_fast (Alloc.block fun _ => 0) (ofList [10, 20, 30] : Vec Int) 1 7).vec.arr k
          = (ofList [10, 20, 30] : Vec Int).arr k) :=
  ⟨by decide, by decide, by decide,
    insert_fast_spec (fun _ => 0) (ofList [10, 20, 30]) 1 7 (by decide) (by decide) (by decide)⟩

theorem remove_fast_slots (v : Vec α) (i : Nat) (hi : i < v.len) (hsz : v.len < SIZE_MOD) :
    (remove_fast v i true).ret = 0 ∧ (remove_fast v i true).out = some (v.arr i) ∧
      (remove_fast v i true).vec.len = v.len - 1 ∧ (remove_fast v i true).vec.cap = v.cap ∧
      (i < v.len - 1 → (remove_fast v i true).vec.arr i = v.arr (v.len - 1)) ∧
      (∀ k, k < v.len - 1 → k ≠ i → (remove_fast v i true).vec.arr k = v.arr k) := by
  rw [remove_fast_ok v i hi hsz]
  refine ⟨rfl, rfl, rfl, rfl, fun _ => by simp only [Function.update_same], ?_⟩
  intro k _ hne
  simp only
  rw [Function.update_noteq hne]

/-- Claim C8: for every vector (its `len` a `size_t`) and every `i < len`,
`remove_fast(v, i, out)` returns 0, stores the old element at `i` in `out`,
decrements `len` by one, leaves `cap` unchanged, and in the new live range slot
`i` (when `i < old_len - 1`) holds the element that was at `old_len - 1` while
every other slot is unchanged. -/
theorem remove_fast_spec (v : Vec α) (i : Nat) (hi : i < v.len) (hsz : v.len < SIZE_MOD) :
    (remove_fast v i true).ret = 0 ∧ (remove_fast v i true).out = some (v.arr i) ∧
      (remove_fast v i true).vec.len = v.len - 1 ∧ (remove_fast v i true).vec.cap = v.cap ∧
      (i < v.len - 1 → (remove_fast v i true).vec.arr i = v.arr (v.len - 1)) ∧
      (∀ k, k < v.len - 1 → k ≠ i → (remove_fast v i true).vec.arr k = v.arr k) :=
  remove_fast_slots v i hi hsz

theorem remove_fast_spec_witness :
    0 < (ofList [10, 20, 30] : Vec Int).len ∧ (ofList [10, 20, 30] : Vec Int).len < SIZE_MOD ∧
      (remove_fast (ofList [10, 20, 30] : Vec Int) 0 true).ret = 0 ∧
      (remove_fast (ofList [10, 20, 30] : Vec Int) 0 true).out
        = some ((ofList [10, 20, 30] : Vec Int).arr 0) ∧
      (remove_fast (ofList [10, 20, 30] : Vec Int) 0 true).vec.len
        = (ofList [10, 20, 30] : Vec Int).len - 1 ∧
      (remove_fast (ofList [10, 20, 30] : Vec Int) 0 true).vec.cap
        = (ofList [10, 20, 30] : Vec Int).cap ∧
      (0 < (ofList [10, 20, 30] : Vec Int).len - 1 →
        (remove_fast (ofList [10, 20, 30] : Vec Int) 0 true).vec.arr 0
          = (ofList [10, 20, 30] : Vec Int).arr ((ofList [10, 20, 30] : Vec Int).len - 1)) ∧
      (∀ k, k < (ofList [10, 20, 30] : Vec Int).len - 1 → k ≠ 0 →
        (remove_fast (ofList [10, 20, 30] : Vec Int) 0 true).vec.arr k
          = (ofList [10, 20, 30] : Vec Int).arr k) :=
  ⟨by decide, by decide, remove_fast_spec (ofList [10, 20, 30]) 0 (by decide) (by decide)⟩

/-! ## Insert at the front, remove at the front -/


theorem insert_len_le_cap [BaseT α] (fresh : Nat → α) (v : Vec α) (i : Nat) (x : α)
    (hcap : v.len ≤ v.cap) (hi : i ≤ v.len) (hfit : 2 * (v.len + 1) ≤ SIZE_MOD) :
    (insert (Alloc.block fresh) v i x).vec.len ≤ (insert (Alloc.block fresh) v i x).vec.cap := by
  have hf : v.len + 1 < SIZE_MOD := by rw [SIZE_MOD_eq] at hfit ⊢; omega
  obtain ⟨_, _, _, e4, e5⟩ := set_len_some fresh v (v.len + 1)
  have := round_up_ge (v.len + 1) hfit
  rw [insert_some fresh v i x hi hf]
  simp only
  omega

theorem insert_front_all_spec [BaseT α] : ∀ (ps : List ((Nat → α) × α)) (v : Vec α),
    v.len ≤ v.cap → 2 * (v.len + ps.length) ≤ SIZE_MOD →
      ∃ w, insert_front_all v ps = some w ∧ w.len = v.len + ps.length ∧ w.len ≤ w.cap ∧
        w.toList = (ps.map Prod.snd).reverse ++ v.toList := by
  intro ps
  induction ps with
  | nil => intro v hc _; exact ⟨v, rfl, rfl, hc, by simp⟩
  | cons p rest ih =>
    intro v hc h
    obtain ⟨fresh, x⟩ := p
    simp only [List.length_cons] at h
    have hf : v.len + 1 < SIZE_MOD := by rw [SIZE_MOD_eq] at h ⊢; omega
    obtain ⟨e1, e2, _, _, _, e6⟩ := insert_slots fresh v 0 x hc (Nat.zero_le _) hf
    have ec := insert_len_le_cap fresh v 0 x hc (Nat.zero_le _) (by omega)
    obtain ⟨w, f1, f2, f3, f4⟩ := ih (insert (Alloc.block fresh) v 0 x).vec ec (by rw [e2]; omega)
    refine ⟨w, ?_, ?_, f3, ?_⟩
    · simp only [insert_front_all, e1, if_true]; exact f1
    · rw [f2, e2, List.length_cons]; omega
    · rw [f4, e6]; simp

theorem remove_front_n_spec : ∀ (n : Nat) (v : Vec α), v.len < SIZE_MOD → n ≤ v.len →
    ∃ w, remove_front_n n v = some (v.toList.take n, w) ∧ w.len = v.len - n := by
  intro n
  induction n with
  | zero => intro v _ _; exact ⟨v, by simp [remove_front_n], rfl⟩
  | succ m ih =>
    intro v hv hn
    obtain ⟨e1, e2, e3, _, _, e6, _⟩ := remove_slots v 0 (by omega) hv
    obtain ⟨w, f1, f2⟩ := ih (remove v 0 true).vec (by rw [e3]; omega) (by rw [e3]; omega)
    have hl : v.toList = v.arr 0 :: (remove v 0 true).vec.toList := by
      have hk : v.len = (v.len - 1) + 1 := by omega
      unfold Vec.toList
      rw [e3]
      conv_lhs => rw [hk, List.range_succ_eq_map, List.map_cons, List.map_map]
      congr 1
      exact (map_range_congr _ _ _ (fun j hj => e6 j (Nat.zero_le _) hj)).symm
    refine ⟨w, ?_, by rw [f2, e3]; omega⟩
    simp only [remove_front_n, e1, if_true, e2, f1]
    rw [hl, List.take_succ_cons]

/-- Claim C6, as amended: for every `n` (at most half of `SIZE_MOD`), starting from
a vector in the zero state, inserting the values `0, 1, ..., n - 1` in that order
each at index 0 with `insert`, and then calling `remove` at index 0 `n` times,
succeeds and returns the removed values in decreasing order
`n - 1, ..., 1, 0`, the reverse of the insertion order. -/
theorem insert_remove_front (fresh : Nat → Int) (n : Nat) (hn : 2 * n ≤ SIZE_MOD) :
    insert_remove_run fresh n = some ((List.range n).reverse.map fun (k : Nat) => (k : Int)) := by
  obtain ⟨w, e1, e2, _, e4⟩ :=
    insert_front_all_spec ((List.range n).map fun (k : Nat) => (fresh, (k : Int))) (init fresh)
      (le_refl _) (by simpa [init] using hn)
  have hl : w.len = n := by rw [e2]; simp [init]
  have ht : w.toList = (List.range n).reverse.map fun (k : Nat) => (k : Int) := by
    rw [e4]
    simp [init, Vec.toList, List.map_reverse, Function.comp_def]
  have hw : w.len < SIZE_MOD := by rw [SIZE_MOD_eq] at hn ⊢; omega
  obtain ⟨u, f1, _⟩ := remove_front_n_spec n w hw (by omega)
  simp only [insert_remove_run, e1, f1, Option.map_some', ht]
  congr 1
  apply List.take_of_length_le
  simp

theorem insert_remove_front_witness :
    2 * 3 ≤ SIZE_MOD ∧
      insert_remove_run (fun _ => 0) 3 = some ((List.range 3).reverse.map fun (k : Nat) => (k : Int)) :=
  ⟨by decide, insert_remove_front (fun _ => 0) 3 (by decide)⟩

/-- Claim C6 as stated fails: inserting `0` and then `1` at index 0 and removing
index 0 twice returns `1, 0`, not the increasing order `0, 1`. -/
theorem insert_remove_front_not_increasing :
    insert_remove_run (fun _ => 0) 2 = some [1, 0] ∧
      ¬ insert_remove_run (fun _ => 0) 2 = some ((List.range 2).map fun (k : Nat) => (k : Int)) := by
  decide

/-! ## Insertion at the end is a push -/


theorem expand_null_fail [BaseT α] (stale : Nat → α) (v : Vec α) (n : Nat)
    (h : ¬ round_up n ≤ v.cap) (hb : ¬ (sz_mul (round_up n) (sizeof α) = 0 ∧ v.cap ≠ 0)) :
    expand (Alloc.null stale) v n = ⟨-1, some Errno.ENOMEM, none, v⟩ := by
  simp only [expand, if_neg h, if_neg hb]

theorem expand_null_released [BaseT α] (stale : Nat → α) (v : Vec α) (n : Nat)
    (h : ¬ round_up n ≤ v.cap) (hb : sz_mul (round_up n) (sizeof α) = 0 ∧ v.cap ≠ 0) :
    expand (Alloc.null stale) v n = ⟨-1, none, none, ⟨v.len, v.cap, stale⟩⟩ := by
  simp only [expand, if_neg h, if_pos hb]

theorem expand_len [BaseT α] (alloc : Alloc α) (v : Vec α) (n : Nat) :
    (expand alloc v n).vec.len = v.len := by
  by_cases h : round_up n ≤ v.cap
  · have e : expand alloc v n = ⟨0, none, none, v⟩ := by simp only [expand, if_pos h]
    rw [e]
  · cases alloc with
    | null stale =>
      by_cases hb : sz_mul (round_up n) (sizeof α) = 0 ∧ v.cap ≠ 0
      · rw [expand_null_released stale v n h hb]
      · rw [expand_null_fail stale v n h hb]
    | block fresh => exact (expand_some fresh v n).2.1

theorem memmove_zero (arr : Nat → α) (dst src : Nat) : memmove arr dst src 0 = arr := by
  funext k
  simp only [memmove]
  rw [if_neg (by omega)]

theorem round_up_zero : round_up 0 = 0 := by decide

theorem sz_add_wrap {a b : Nat} (h : a + b = SIZE_MOD) : sz_add a b = 0 := by
  unfold sz_add
  rw [h, Nat.mod_self]

theorem sz_sub_zero_one : sz_sub 0 1 = SIZE_MOD - 1 := by
  unfold sz_sub
  rw [if_neg (by omega)]

theorem expand_zero [BaseT α] (alloc : Alloc α) (v : Vec α) : expand alloc v 0 = ⟨0, none, none, v⟩ := by
  have h : round_up 0 ≤ v.cap := by rw [round_up_zero]; omega
  simp only [expand, if_pos h]

/-- Claim C9: for every vector with `len ≤ cap` (its `len` a `size_t`) and every
`x`, `insert_fast(v, len, x)` behaves exactly like `push(v, x)`: under the same
allocator outcome both produce the same return value, `errno`, `len`, `cap` and
storage; the same holds for `insert(v, len, x)`; and when the allocation
succeeds and `len + 1` is a `size_t` the call returns 0 and the live sequence is
the old one with `x` appended. -/
theorem insert_at_len_eq_push [BaseT α] (alloc : Alloc α) (v : Vec α) (x : α)
    (hcap : v.len ≤ v.cap) (hsz : v.len < SIZE_MOD) :
    insert_fast alloc v v.len x = push alloc v x ∧
      insert alloc v v.len x = push alloc v x ∧
      (∀ fresh, alloc = Alloc.block fresh → v.len + 1 < SIZE_MOD →
        (push alloc v x).ret = 0 ∧ (push alloc v x).vec.toList = v.toList ++ [x]) := by
  have hi : ¬ v.len > v.len := by omega
  have hmax : VECTOR_MAX v.len v.len = v.len := VECTOR_MAX_len v.len v.len (le_refl _)
  refine ⟨?_, ?_, ?_⟩
  · by_cases hw : v.len + 1 < SIZE_MOD
    · have hs : sz_add v.len 1 = v.len + 1 := sz_add_eq hw
      have hb : sz_sub (v.len + 1) 1 = v.len := by
        rw [sz_sub_eq (by omega) hw, Nat.add_sub_cancel]
      by_cases hc : v.len = v.cap
      · have hgt : v.len + 1 > v.cap := by omega
        by_cases hr : (expand alloc v (v.len + 1)).ret ≠ 0
        · simp only [insert_fast, if_neg hi, hmax, hs, set_len, if_pos hgt, if_pos hr, push,
            if_pos hc, ne_eq, not_false_eq_true, if_true, reduceCtorEq]
        · simp only [insert_fast, if_neg hi, hmax, hs, set_len, if_pos hgt, if_neg hr, push,
            if_pos hc, ne_eq, not_true_eq_false, if_false, push_store, hb, expand_len,
            Function.update_eq_self, Int.reduceNeg]
      · have hgt : ¬ v.len + 1 > v.cap := by omega
        simp only [insert_fast, if_neg hi, hmax, hs, set_len, if_neg hgt, push,
          if_neg hc, ne_eq, not_true_eq_false, if_false, push_store, hb,
          Function.update_eq_self]
    · have hw' : v.len + 1 = SIZE_MOD := by omega
      have hs : sz_add v.len 1 = 0 := sz_add_wrap hw'
      have hb : sz_sub 0 1 = v.len := by rw [sz_sub_zero_one]; omega
      have hgt : ¬ 0 > v.cap := by omega
      have he : expand alloc v 0 = ⟨0, none, none, v⟩ := expand_zero alloc v
      by_cases hc : v.len = v.cap
      · simp only [insert_fast, if_neg hi, hmax, hs, set_len, if_neg hgt, push,
          if_pos hc, he, ne_eq, not_true_eq_false, if_false, push_store, hb,
          Function.update_eq_self]
      · simp only [insert_fast, if_neg hi, hmax, hs, set_len, if_neg hgt, push,
          if_neg hc, ne_eq, not_true_eq_false, if_false, push_store, hb,
          Function.update_eq_self]
  · by_cases hw : v.len + 1 < SIZE_MOD
    · have hs : sz_add v.len 1 = v.len + 1 := sz_add_eq hw
      have hb : sz_sub (sz_sub (v.len + 1) 1) v.len = 0 := by
        rw [sz_sub_eq (by omega) hw, Nat.add_sub_cancel, sz_sub_eq (le_refl _) hsz,
          Nat.sub_self]
      by_cases hc : v.len = v.cap
      · have hgt : v.len + 1 > v.cap := by omega
        by_cases hr : (expand alloc v (v.len + 1)).ret ≠ 0
        · simp only [insert, if_neg hi, hmax, hs, set_len, if_pos hgt, if_pos hr, push,
            if_pos hc, ne_eq, not_false_eq_true, if_true, reduceCtorEq]
        · simp only [insert, if_neg hi, hmax, hs, set_len, if_pos hgt, if_neg hr, push,
            if_pos hc, ne_eq, not_true_eq_false, if_false, push_store, hb, expand_len,
            memmove_zero, Int.reduceNeg]
      · have hgt : ¬ v.len + 1 > v.cap := by omega
        simp only [insert, if_neg hi, hmax, hs, set_len, if_neg hgt, push,
          if_neg hc, ne_eq, not_true_eq_false, if_false, push_store, hb, memmove_zero]
    · have hw' : v.len + 1 = SIZE_MOD := by omega
      have hs : sz_add v.len 1 = 0 := sz_add_wrap hw'
      have hb : sz_sub (sz_sub 0 1) v.len = 0 := by
        rw [sz_sub_zero_one, sz_sub_eq (by omega) (by omega)]; omega
      have hgt : ¬ 0 > v.cap := by omega
      have he : expand alloc v 0 = ⟨0, none, none, v⟩ := expand_zero alloc v
      by_cases hc : v.len = v.cap
      · simp only [insert, if_neg hi, hmax, hs, set_len, if_neg hgt, push,
          if_pos hc, he, ne_eq, not_true_eq_false, if_false, push_store, hb, memmove_zero]
      · simp only [insert, if_neg hi, hmax, hs, set_len, if_neg hgt, push,
          if_neg hc, ne_eq, not_true_eq_false, if_false, push_store, hb, memmove_zero]
  · intro fresh ha hw
    subst ha
    obtain ⟨e1, e2, e3, e4⟩ := push_some fresh v x hw
    refine ⟨e1, ?_⟩
    rw [toList_snoc v _ e2 e4, e3]

theorem insert_at_len_eq_push_witness :
    (ofList [1, 2] : Vec Int).len ≤ (ofList [1, 2] : Vec Int).cap ∧
      (ofList [1, 2] : Vec Int).len < SIZE_MOD ∧
      insert_fast (Alloc.block fun _ => 0) (ofList [1, 2] : Vec Int) (ofList [1, 2] : Vec Int).len 5
        = push (Alloc.block fun _ => 0) (ofList [1, 2] : Vec Int) 5 ∧
      insert (Alloc.block fun _ => 0) (ofList [1, 2] : Vec Int) (ofList [1, 2] : Vec Int).len 5
        = push (Alloc.block fun _ => 0) (ofList [1, 2] : Vec Int) 5 ∧
      (∀ fresh, (Alloc.block fun _ => 0 : Alloc Int) = Alloc.block fresh →
        (ofList [1, 2] : Vec Int).len + 1 < SIZE_MOD →
        (push (Alloc.block fun _ => 0) (ofList [1, 2] : Vec Int) 5).ret = 0 ∧
          (push (Alloc.block fun _ => 0) (ofList [1, 2] : Vec Int) 5).vec.toList
            = (ofList [1, 2] : Vec Int).toList ++ [5]) :=
  ⟨by decide, by decide,
    insert_at_len_eq_push (Alloc.block fun _ => 0) (ofList [1, 2]) 5 (by decide) (by decide)⟩

/-! ## Sequences of fast insertions and removals -/


theorem insert_fast_perm [BaseT α] (fresh : Nat → α) (v : Vec α) (i : Nat) (x : α)
    (hcap : v.len ≤ v.cap) (hi : i ≤ v.len) (hfit : v.len + 1 < SIZE_MOD) :
    (insert_fast (Alloc.block fresh) v i x).vec.toList.Perm (x :: v.toList) := by
  obtain ⟨_, h2, h3, h4, h5, _, _⟩ := insert_fast_slots fresh v i x hcap hi hfit
  let b : Nat → α := Function.update v.arr v.len x
  have hb : (List.range (v.len + 1)).map b = v.toList ++ [x] := by
    rw [List.range_succ, List.map_append, List.map_cons, List.map_nil]
    congr 1
    · exact map_range_congr _ _ _ (fun k hk => Function.update_noteq (by omega) _ _)
    · simp only [b, Function.update_same]
  have ha : (insert_fast (Alloc.block fresh) v i x).vec.toList
      = (List.range (v.len + 1)).map
          (Function.update (Function.update b i (b v.len)) v.len (b i)) := by
    unfold Vec.toList
    rw [h2]
    apply map_range_congr
    intro k hk
    simp only [b, Function.update_apply]
    by_cases k1 : k = v.len
    · subst k1
      by_cases k2 : i = v.len
      · simp only [k2, if_true]; rw [← k2]; exact h3
      · simp only [if_true, if_neg k2]; exact h4 (by omega)
    · by_cases k2 : k = i
      · subst k2; simp only [if_neg k1, if_true]; exact h3
      · simp only [if_neg k1, if_neg k2]; exact h5 k (by omega) k2
  rw [ha]
  refine (map_range_swap_perm b (v.len + 1) i v.len (by omega) (by omega)).trans ?_
  rw [hb]
  exact List.perm_append_singleton x v.toList

theorem remove_fast_perm (v : Vec α) (i : Nat) (hi : i < v.len) (hsz : v.len < SIZE_MOD) :
    v.toList.Perm (v.arr i :: (remove_fast v i true).vec.toList) := by
  have hc : (List.range v.len).map
      (Function.update (Function.update v.arr i (v.arr (v.len - 1))) (v.len - 1) (v.arr i))
      = (remove_fast v i true).vec.toList ++ [v.arr i] := by
    obtain ⟨_, _, e3, _, _, _⟩ := remove_fast_slots v i hi hsz
    have h := toList_snoc (remove_fast v i true).vec
      ⟨v.len, v.cap,
        Function.update (Function.update v.arr i (v.arr (v.len - 1))) (v.len - 1) (v.arr i)⟩
      (by rw [e3]; simp only; omega)
      (by
        intro k hk
        rw [e3] at hk
        rw [remove_fast_ok v i hi hsz]
        simp only
        rw [Function.update_noteq (by omega)])
    rw [e3] at h
    simp only [Function.update_same] at h
    exact h
  refine (map_range_swap_perm v.arr v.len i (v.len - 1) hi (by omega)).symm.trans ?_
  rw [hc]
  exact List.perm_append_singleton _ _

theorem run_fast_spec [BaseT α] : ∀ (ops : List (FastOp α)) (v : Vec α),
    v.len ≤ v.cap → valid_fast v.len ops → 2 * (v.len + ops.length) ≤ SIZE_MOD →
      ∃ w outs, run_fast v ops = some (w, outs) ∧
        (w.toList ++ outs).Perm (v.toList ++ inserted ops) := by
  intro ops
  induction ops with
  | nil => intro v _ _ _; exact ⟨v, [], rfl, List.Perm.refl _⟩
  | cons op rest ih =>
    intro v hc hv hn
    simp only [List.length_cons] at hn
    have hf : v.len + 1 < SIZE_MOD := by rw [SIZE_MOD_eq] at hn ⊢; omega
    cases op with
    | ins fresh i x =>
      obtain ⟨hi, hv'⟩ := hv
      obtain ⟨e1, e2, _, _, _, e6, e7⟩ := insert_fast_slots fresh v i x hc hi hf
      have hge := round_up_ge (v.len + 1) (by omega)
      obtain ⟨w, outs, f1, f2⟩ := ih (insert_fast (Alloc.block fresh) v i x).vec
        (by rw [e2]; omega) (by rw [e2]; exact hv') (by rw [e2]; omega)
      refine ⟨w, outs, ?_, ?_⟩
      · simp only [run_fast, e1, if_true]; exact f1
      · refine f2.trans ?_
        simp only [inserted]
        refine ((insert_fast_perm fresh v i x hc hi hf).append_right _).trans ?_
        simp only [List.cons_append]
        exact List.perm_middle.symm
    | rem i =>
      obtain ⟨hi, hv'⟩ := hv
      obtain ⟨e1, e2, e3, e4, _, _⟩ := remove_fast_slots v i hi (by omega)
      obtain ⟨w, outs, f1, f2⟩ := ih (remove_fast v i true).vec
        (by rw [e3, e4]; omega) (by rw [e3]; exact hv') (by rw [e3]; omega)
      refine ⟨w, v.arr i :: outs, ?_, ?_⟩
      · simp only [run_fast, e1, if_true, e2, f1]
      · simp only [inserted]
        refine List.perm_middle.trans ?_
        refine (List.Perm.cons _ f2).trans ?_
        rw [← List.cons_append]
        exact ((remove_fast_perm v i hi (by omega)).symm).append_right _

/-- Claim C10: for every finite sequence of `insert_fast` and `remove_fast` calls
at valid indices applied to a vector with `len ≤ cap`, all allocations
succeeding (and every length reached at most half of `SIZE_MOD`), every call
returns 0 and the multiset of the live range afterwards, together with the
values returned by `remove_fast`, equals the initial multiset together with the
inserted values; that is, it equals the initial multiset plus the inserted
values minus the returned values. -/
theorem fast_ops_multiset [BaseT α] [DecidableEq α] (ops : List (FastOp α)) (v : Vec α)
    (hcap : v.len ≤ v.cap) (hvalid : valid_fast v.len ops)
    (hfit : 2 * (v.len + ops.length) ≤ SIZE_MOD) :
    ∃ w outs, run_fast v ops = some (w, outs) ∧
      (w.toList : Multiset α) + (outs : Multiset α)
        = (v.toList : Multiset α) + (inserted ops : Multiset α) ∧
      (w.toList : Multiset α)
        = (v.toList : Multiset α) + (inserted ops : Multiset α) - (outs : Multiset α) := by
  obtain ⟨w, outs, e, p⟩ := run_fast_spec ops v hcap hvalid hfit
  have h : (w.toList : Multiset α) + (outs : Multiset α)
      = (v.toList : Multiset α) + (inserted ops : Multiset α) := by
    rw [Multiset.coe_add, Multiset.coe_add]
    exact Multiset.coe_eq_coe.2 p
  refine ⟨w, outs, e, h, ?_⟩
  rw [← h, add_tsub_cancel_right]

theorem fast_ops_multiset_witness :
    (ofList [1, 2, 3] : Vec Int).len ≤ (ofList [1, 2, 3] : Vec Int).cap ∧
      valid_fast (ofList [1, 2, 3] : Vec Int).len
        [FastOp.ins (fun _ => (0 : Int)) 1 7, FastOp.rem 0, FastOp.ins (fun _ => 0) 3 8] ∧
      2 * ((ofList [1, 2, 3] : Vec Int).len
        + [FastOp.ins (fun _ => (0 : Int)) 1 7, FastOp.rem 0,
            FastOp.ins (fun _ => 0) 3 8].length) ≤ SIZE_MOD ∧
      ∃ w outs, run_fast (ofList [1, 2, 3] : Vec Int)
          [FastOp.ins (fun _ => (0 : Int)) 1 7, FastOp.rem 0, FastOp.ins (fun _ => 0) 3 8]
          = some (w, outs) ∧
        (w.toList : Multiset Int) + (outs : Multiset Int)
          = ((ofList [1, 2, 3] : Vec Int).toList : Multiset Int)
            + (inserted [FastOp.ins (fun _ => (0 : Int)) 1 7, FastOp.rem 0,
                FastOp.ins (fun _ => 0) 3 8] : Multiset Int) ∧
        (w.toList : Multiset Int)
          = ((ofList [1, 2, 3] : Vec Int).toList : Multiset Int)
            + (inserted [FastOp.ins (fun _ => (0 : Int)) 1 7, FastOp.rem 0,
                FastOp.ins (fun _ => 0) 3 8] : Multiset Int) - (outs : Multiset Int) :=
  ⟨by decide, ⟨by decide, by decide, by decide, trivial⟩, by decide,
    fast_ops_multiset
      [FastOp.ins (fun _ => (0 : Int)) 1 7, FastOp.rem 0, FastOp.ins (fun _ => 0) 3 8]
      (ofList [1, 2, 3]) (by decide) ⟨by decide, by decide, by decide, trivial⟩ (by decide)⟩

/-! ## Capacity: the rounding of `_expand` on extreme requests -/


theorem round_up_size_max : round_up (SIZE_MOD - 1) = 0 := by decide

theorem round_up_above_32 : round_up (2 ^ 32 + 1) = 2 ^ 33 - 1 := by decide

theorem not_pow2_33 : ¬ ∃ k : Nat, 2 ^ 33 - 1 = 2 ^ k := by
  rintro ⟨k, hk⟩
  cases k with
  | zero => simp at hk
  | succ m =>
    rw [Nat.pow_succ] at hk
    omega

theorem expand_no_op [BaseT α] (alloc : Alloc α) (v : Vec α) (n : Nat) (h : round_up n ≤ v.cap) :
    expand alloc v n = ⟨0, none, none, v⟩ := by
  simp only [expand, if_pos h]

theorem expand_some_grow [BaseT α] (fresh : Nat → α) (v : Vec α) (n : Nat) (h : ¬ round_up n ≤ v.cap) :
    expand (Alloc.block fresh) v n = ⟨0, none, none,
      ⟨v.len, round_up n, fun k => if k < v.cap then v.arr k else fresh k⟩⟩ := by
  simp only [expand, if_neg h]

/-- Claim C11 fails at `set_len(v, SIZE_MAX)` on the zero state, whatever the
allocator would answer: the rounding of `_expand` wraps to 0, `_expand` returns 0
without allocating, and `_set_len` returns 0 with `len = SIZE_MAX` while `cap`
is still 0, so `len ≤ cap` does not hold after the call. -/
theorem set_len_size_max_breaks_len_le_cap [BaseT α] (alloc : Alloc α) (junk : Nat → α) :
    (set_len alloc (init junk) (SIZE_MOD - 1)).ret = 0 ∧
      (set_len alloc (init junk) (SIZE_MOD - 1)).vec.len = SIZE_MOD - 1 ∧
      (set_len alloc (init junk) (SIZE_MOD - 1)).vec.cap = 0 ∧
      ¬ (set_len alloc (init junk) (SIZE_MOD - 1)).vec.len
          ≤ (set_len alloc (init junk) (SIZE_MOD - 1)).vec.cap := by
  have hr : round_up (SIZE_MOD - 1) ≤ (init junk).cap := by
    rw [round_up_size_max]; exact Nat.zero_le _
  have hg : SIZE_MOD - 1 > (init junk).cap := by
    show 0 < SIZE_MOD - 1
    decide
  have e : set_len alloc (init junk) (SIZE_MOD - 1)
      = ⟨0, none, none, ⟨SIZE_MOD - 1, (init junk).cap, (init junk).arr⟩⟩ := by
    simp only [set_len, if_pos hg, expand_no_op alloc (init junk) _ hr, ne_eq,
      not_true_eq_false, if_false]
  rw [e]
  refine ⟨rfl, rfl, rfl, ?_⟩
  show ¬ SIZE_MOD - 1 ≤ 0
  decide

/-- Claim C12 fails at `expand(v, 2^32 + 1)` on the zero state with a
successful allocation: the call returns 0 and the capacity becomes
`2^33 - 1`, which is neither 0 nor a power of two. -/
theorem expand_cap_not_pow2 [BaseT α] (fresh junk : Nat → α) :
    (expand (Alloc.block fresh) (init junk) (2 ^ 32 + 1)).ret = 0 ∧
      (expand (Alloc.block fresh) (init junk) (2 ^ 32 + 1)).vec.cap = 2 ^ 33 - 1 ∧
      (expand (Alloc.block fresh) (init junk) (2 ^ 32 + 1)).vec.cap ≠ 0 ∧
      ¬ ∃ k : Nat, (expand (Alloc.block fresh) (init junk) (2 ^ 32 + 1)).vec.cap = 2 ^ k := by
  have hr : ¬ round_up (2 ^ 32 + 1) ≤ (init junk).cap := by
    rw [round_up_above_32]
    show ¬ 2 ^ 33 - 1 ≤ 0
    decide
  rw [expand_some_grow fresh (init junk) _ hr, round_up_above_32]
  refine ⟨rfl, rfl, ?_, not_pow2_33⟩
  show 2 ^ 33 - 1 ≠ 0
  decide

/-- Claim C13 fails at two requests on the zero state.  For
`min_capacity = 2^32 + 1` with a successful allocation the new capacity is
`2^33 - 1`, not `2^33`, the least power of two that is at least `2^32 + 1`.  For
`min_capacity = SIZE_MAX` the call returns 0 without allocating and the
capacity stays 0, below the request. -/
theorem expand_not_least_pow2 [BaseT α] (fresh junk : Nat → α) (alloc : Alloc α) :
    ((expand (Alloc.block fresh) (init junk) (2 ^ 32 + 1)).ret = 0 ∧
      (expand (Alloc.block fresh) (init junk) (2 ^ 32 + 1)).vec.cap = 2 ^ 33 - 1 ∧
      (expand (Alloc.block fresh) (init junk) (2 ^ 32 + 1)).vec.cap ≠ 2 ^ 33 ∧
      2 ^ 32 + 1 ≤ 2 ^ 33 ∧ ∀ k : Nat, 2 ^ 32 + 1 ≤ 2 ^ k → 2 ^ 33 ≤ 2 ^ k) ∧
    ((init junk).cap < SIZE_MOD - 1 ∧
      (expand alloc (init junk) (SIZE_MOD - 1)).ret = 0 ∧
      (expand alloc (init junk) (SIZE_MOD - 1)).vec.cap = 0 ∧
      ¬ SIZE_MOD - 1 ≤ (expand alloc (init junk) (SIZE_MOD - 1)).vec.cap) := by
  have hr : ¬ round_up (2 ^ 32 + 1) ≤ (init junk).cap := by
    rw [round_up_above_32]
    show ¬ 2 ^ 33 - 1 ≤ 0
    decide
  have hz : round_up (SIZE_MOD - 1) ≤ (init junk).cap := by
    rw [round_up_size_max]; exact Nat.zero_le _
  rw [expand_some_grow fresh (init junk) _ hr, round_up_above_32,
    expand_no_op alloc (init junk) _ hz]
  refine ⟨⟨rfl, rfl, ?_, by decide, ?_⟩, ?_, rfl, rfl, ?_⟩
  · show 2 ^ 33 - 1 ≠ 2 ^ 33
    decide
  · intro k hk
    apply Nat.pow_le_pow_right (by decide)
    by_contra hlt
    have h32 : k ≤ 32 := by omega
    have := Nat.pow_le_pow_right (show 0 < 2 by decide) h32
    omega
  · show 0 < SIZE_MOD - 1
    decide
  · show ¬ SIZE_MOD - 1 ≤ 0
    decide

/-- Claim C14 fails for a full vector of `2^32` elements: with `len = cap = 2^32`
and a successful allocation `push` returns 0, stores `x` at slot `2^32` and sets
`len` to `2^32 + 1`, but the capacity becomes `2^33 - 1` instead of doubling to
`2^33`. -/
theorem push_cap_not_doubled [BaseT α] (fresh junk : Nat → α) (x : α) :
    (push (Alloc.block fresh) ⟨2 ^ 32, 2 ^ 32, junk⟩ x).ret = 0 ∧
      (push (Alloc.block fresh) ⟨2 ^ 32, 2 ^ 32, junk⟩ x).vec.len = 2 ^ 32 + 1 ∧
      (push (Alloc.block fresh) ⟨2 ^ 32, 2 ^ 32, junk⟩ x).vec.arr (2 ^ 32) = x ∧
      (push (Alloc.block fresh) ⟨2 ^ 32, 2 ^ 32, junk⟩ x).vec.cap = 2 ^ 33 - 1 ∧
      (push (Alloc.block fresh) ⟨2 ^ 32, 2 ^ 32, junk⟩ x).vec.cap ≠ 2 * 2 ^ 32 := by
  have hs : sz_add (2 ^ 32) 1 = 2 ^ 32 + 1 := by decide
  have hr : ¬ round_up (2 ^ 32 + 1) ≤ (⟨2 ^ 32, 2 ^ 32, junk⟩ : Vec α).cap := by
    rw [round_up_above_32]
    show ¬ 2 ^ 33 - 1 ≤ 2 ^ 32
    decide
  have e : push (Alloc.block fresh) ⟨2 ^ 32, 2 ^ 32, junk⟩ x = ⟨0, none, none,
      ⟨2 ^ 32 + 1, 2 ^ 33 - 1,
        Function.update (fun k => if k < 2 ^ 32 then junk k else fresh k) (2 ^ 32) x⟩⟩ := by
    simp only [push, if_true, hs, expand_some_grow fresh _ _ hr, ne_eq, not_true_eq_false,
      if_false, push_store, round_up_above_32]
  rw [e]
  refine ⟨rfl, rfl, by simp only [Function.update_same], rfl, ?_⟩
  show 2 ^ 33 - 1 ≠ 2 * 2 ^ 32
  decide

/-! ## Allocation failures -/


theorem sizeof_pos (α : Type) [inst : BaseT α] : 0 < sizeof α := inst.size_pos

theorem sz_mul_ne_zero {a b : Nat} (ha : 0 < a) (hb : 0 < b) (h : a * b < SIZE_MOD) :
    sz_mul a b ≠ 0 := by
  unfold sz_mul
  rw [Nat.mod_eq_of_lt h]
  exact Nat.mul_ne_zero (by omega) (by omega)

theorem request_ne_zero [BaseT α] (v : Vec α) (n : Nat) (h : ¬ round_up n ≤ v.cap)
    (hf : round_up n * sizeof α < SIZE_MOD) :
    ¬ (sz_mul (round_up n) (sizeof α) = 0 ∧ v.cap ≠ 0) := by
  intro hb
  exact sz_mul_ne_zero (by omega) (sizeof_pos α) hf hb.1

theorem expand_ret [BaseT α] (alloc : Alloc α) (v : Vec α) (n : Nat) :
    (expand alloc v n).ret = 0 ∨ expand alloc v n = ⟨-1, some Errno.ENOMEM, none, v⟩ ∨
      ∃ stale, alloc = Alloc.null stale ∧ ¬ round_up n ≤ v.cap ∧
        (sz_mul (round_up n) (sizeof α) = 0 ∧ v.cap ≠ 0) ∧
        expand alloc v n = ⟨-1, none, none, ⟨v.len, v.cap, stale⟩⟩ := by
  by_cases h : round_up n ≤ v.cap
  · left; rw [expand_no_op alloc v n h]
  · cases alloc with
    | null stale =>
      by_cases hb : sz_mul (round_up n) (sizeof α) = 0 ∧ v.cap ≠ 0
      · right; right
        exact ⟨stale, rfl, h, hb, expand_null_released stale v n h hb⟩
      · right; left
        exact expand_null_fail stale v n h hb
    | block fresh => left; exact (expand_some fresh v n).1

theorem set_len_ret [BaseT α] (alloc : Alloc α) (v : Vec α) (n : Nat) :
    (set_len alloc v n).ret = 0 ∨ set_len alloc v n = ⟨-1, some Errno.ENOMEM, none, v⟩ ∨
      ∃ stale, alloc = Alloc.null stale ∧ n > v.cap ∧ ¬ round_up n ≤ v.cap ∧
        (sz_mul (round_up n) (sizeof α) = 0 ∧ v.cap ≠ 0) ∧
        set_len alloc v n = ⟨-1, none, none, ⟨v.len, v.cap, stale⟩⟩ := by
  by_cases hn : n > v.cap
  · rcases expand_ret alloc v n with h0 | h1 | ⟨stale, ha, hr, hb, he⟩
    · left
      simp only [set_len, if_pos hn, h0, ne_eq, not_true_eq_false, if_false]
    · right; left
      simp only [set_len, if_pos hn, h1, ne_eq, Int.reduceNeg, Int.neg_eq_zero, one_ne_zero,
        not_false_eq_true, if_true]
    · right; right
      refine ⟨stale, ha, hn, hr, hb, ?_⟩
      simp only [set_len, if_pos hn, he, ne_eq, Int.reduceNeg, Int.neg_eq_zero, one_ne_zero,
        not_false_eq_true, if_true]
  · left
    simp only [set_len, if_neg hn]

theorem expand_fail_unchanged [BaseT α] (alloc : Alloc α) (v : Vec α) (n : Nat)
    (hb : ¬ (sz_mul (round_up n) (sizeof α) = 0 ∧ v.cap ≠ 0))
    (h : (expand alloc v n).ret ≠ 0) :
    expand alloc v n = ⟨-1, some Errno.ENOMEM, none, v⟩ := by
  rcases expand_ret alloc v n with h0 | h1 | ⟨_, _, _, hb1, _⟩
  · exact absurd h0 h
  · exact h1
  · exact absurd hb1 hb

theorem set_len_fail_unchanged [BaseT α] (alloc : Alloc α) (v : Vec α) (n : Nat)
    (hb : ¬ (sz_mul (round_up n) (sizeof α) = 0 ∧ v.cap ≠ 0))
    (h : (set_len alloc v n).ret ≠ 0) :
    set_len alloc v n = ⟨-1, some Errno.ENOMEM, none, v⟩ := by
  rcases set_len_ret alloc v n with h0 | h1 | ⟨_, _, _, _, hb1, _⟩
  · exact absurd h0 h
  · exact h1
  · exact absurd hb1 hb

theorem push_fail_unchanged [BaseT α] (alloc : Alloc α) (v : Vec α) (x : α)
    (hb : ¬ (sz_mul (round_up (sz_add v.len 1)) (sizeof α) = 0 ∧ v.cap ≠ 0))
    (h : (push alloc v x).ret ≠ 0) :
    push alloc v x = ⟨-1, some Errno.ENOMEM, none, v⟩ := by
  by_cases hc : v.len = v.cap
  · rcases expand_ret alloc v (sz_add v.len 1) with h0 | h1 | ⟨_, _, _, hb1, _⟩
    · exfalso; apply h
      simp only [push, if_pos hc, h0, ne_eq, not_true_eq_false, if_false, push_store]
    · simp only [push, if_pos hc, h1, ne_eq, Int.reduceNeg, Int.neg_eq_zero, one_ne_zero,
        not_false_eq_true, if_true]
    · exact absurd hb1 hb
  · exfalso; apply h
    simp only [push, if_neg hc, push_store]

theorem insert_fail_unchanged [BaseT α] (alloc : Alloc α) (v : Vec α) (i : Nat) (x : α)
    (hb : ¬ (sz_mul (round_up (sz_add (VECTOR_MAX v.len i) 1)) (sizeof α) = 0 ∧ v.cap ≠ 0))
    (h : (insert alloc v i x).ret ≠ 0) : (insert alloc v i x).vec = v := by
  by_cases hi : i > v.len
  · simp only [insert, if_pos hi]
  · rcases set_len_ret alloc v (sz_add (VECTOR_MAX v.len i) 1) with h0 | h1 | ⟨_, _, _, _, hb1, _⟩
    · exfalso; apply h
      simp only [insert, if_neg hi, h0, ne_eq, not_true_eq_false, if_false]
    · simp only [insert, if_neg hi, h1, ne_eq, Int.reduceNeg, Int.neg_eq_zero, one_ne_zero,
        not_false_eq_true, if_true]
    · exact absurd hb1 hb

theorem insert_fast_fail_unchanged [BaseT α] (alloc : Alloc α) (v : Vec α) (i : Nat) (x : α)
    (hb : ¬ (sz_mul (round_up (sz_add (VECTOR_MAX v.len i) 1)) (sizeof α) = 0 ∧ v.cap ≠ 0))
    (h : (insert_fast alloc v i x).ret ≠ 0) : (insert_fast alloc v i x).vec = v := by
  by_cases hi : i > v.len
  · simp only [insert_fast, if_pos hi]
  · rcases set_len_ret alloc v (sz_add (VECTOR_MAX v.len i) 1) with h0 | h1 | ⟨_, _, _, _, hb1, _⟩
    · exfalso; apply h
      simp only [insert_fast, if_neg hi, h0, ne_eq, not_true_eq_false, if_false]
    · simp only [insert_fast, if_neg hi, h1, ne_eq, Int.reduceNeg, Int.neg_eq_zero,
        one_ne_zero, not_false_eq_true, if_true]
    · exact absurd hb1 hb

theorem expand_slots_block [BaseT α] (fresh : Nat → α) (v : Vec α) (n : Nat)
    (h : ¬ round_up n ≤ v.cap) (hf : round_up n * sizeof α < SIZE_MOD) :
    expand_slots (Alloc.block fresh) v n = (expand (Alloc.block fresh) v n).vec.cap := by
  rw [expand_some_grow fresh v n h]
  simp only [expand_slots, if_neg h, sz_mul, Nat.mod_eq_of_lt hf]
  exact Nat.mul_div_cancel _ (sizeof_pos α)

/-- Claim C15 fails at `expand(v, 2^62)` and at `set_len(v, 2^62)` for a vector of
`int` holding `[1, 2]` (`len = cap = 2`, 4-byte elements).  The rounded capacity
is `2^62`, above `cap`, and the byte count `2^62 * sizeof(int)` wraps to 0;
`realloc(arr, 0)` releases the block and returns `NULL`.  The call returns -1
with `len` and `cap` as before, but `errno` is not set and the two elements are
gone: the storage behind `arr` reads what the allocator left there (`stale`),
and the block has room for 0 elements; with zeros left there the live sequence
is `[0, 0]`, not `[1, 2]`. -/
theorem alloc_failure_releases_storage (stale : Nat → Int) :
    ¬ round_up (2 ^ 62) ≤ (ofList [1, 2] : Vec Int).cap ∧
    sz_mul (round_up (2 ^ 62)) (sizeof Int) = 0 ∧
    expand (Alloc.null stale) (ofList [1, 2]) (2 ^ 62) = ⟨-1, none, none, ⟨2, 2, stale⟩⟩ ∧
    set_len (Alloc.null stale) (ofList [1, 2]) (2 ^ 62) = ⟨-1, none, none, ⟨2, 2, stale⟩⟩ ∧
    expand_slots (Alloc.null stale) (ofList [1, 2] : Vec Int) (2 ^ 62) = 0 ∧
    (ofList [1, 2] : Vec Int).toList = [1, 2] ∧
    (expand (Alloc.null stale) (ofList [1, 2] : Vec Int) (2 ^ 62)).vec.toList
      = [stale 0, stale 1] ∧
    (set_len (Alloc.null stale) (ofList [1, 2] : Vec Int) (2 ^ 62)).vec.toList
      = [stale 0, stale 1] ∧
    (expand (Alloc.null fun _ => 0) (ofList [1, 2] : Vec Int) (2 ^ 62)).vec.toList
      ≠ (ofList [1, 2] : Vec Int).toList := by
  have hr : ¬ round_up (2 ^ 62) ≤ (ofList [1, 2] : Vec Int).cap := by decide
  have hb : sz_mul (round_up (2 ^ 62)) (sizeof Int) = 0 ∧ (ofList [1, 2] : Vec Int).cap ≠ 0 := by
    decide
  have hn : 2 ^ 62 > (ofList [1, 2] : Vec Int).cap := by decide
  have e1 : expand (Alloc.null stale) (ofList [1, 2]) (2 ^ 62)
      = ⟨-1, none, none, ⟨2, 2, stale⟩⟩ := expand_null_released stale (ofList [1, 2]) _ hr hb
  have e2 : set_len (Alloc.null stale) (ofList [1, 2]) (2 ^ 62)
      = ⟨-1, none, none, ⟨2, 2, stale⟩⟩ := by
    simp only [set_len, if_pos hn, e1, ne_eq, Int.reduceNeg, Int.neg_eq_zero, one_ne_zero,
      not_false_eq_true, if_true]
  have e3 : expand_slots (Alloc.null stale) (ofList [1, 2] : Vec Int) (2 ^ 62) = 0 := by
    simp only [expand_slots, if_neg hr, if_pos hb]
  have e4 : (expand (Alloc.null fun _ => 0) (ofList [1, 2] : Vec Int) (2 ^ 62)).vec.toList
      ≠ (ofList [1, 2] : Vec Int).toList := by
    rw [expand_null_released (fun _ => 0) (ofList [1, 2]) _ hr hb]
    decide
  rw [e1, e2]
  exact ⟨hr, hb.1, rfl, rfl, e3, by decide, rfl, rfl, e4⟩

/-! ## Range errors -/


theorem index_cases (v : Vec α) (i : Nat) (b : Bool) :
    ((index v i b).ret ≠ 0 ↔ i ≥ v.len) ∧
      (i ≥ v.len → index v i b = ⟨-1, some Errno.ERANGE, none, v⟩) := by
  by_cases h : i ≥ v.len
  · have e : index v i b = ⟨-1, some Errno.ERANGE, none, v⟩ := by simp only [index, if_pos h]
    rw [e]
    exact ⟨⟨fun _ => h, fun _ => (show (-1 : Int) ≠ 0 by decide)⟩, fun _ => rfl⟩
  · have e : index v i b = ⟨0, none, if b then some (v.arr i) else none, v⟩ := by
      simp only [index, if_neg h]
    rw [e]
    exact ⟨⟨fun h0 => absurd rfl h0, fun h1 => absurd h1 h⟩, fun h1 => absurd h1 h⟩

theorem set_index_cases (v : Vec α) (i : Nat) (x : α) :
    ((set_index v i x).ret ≠ 0 ↔ i ≥ v.len) ∧
      (i ≥ v.len → set_index v i x = ⟨-1, some Errno.ERANGE, none, v⟩) := by
  by_cases h : i ≥ v.len
  · have e : set_index v i x = ⟨-1, some Errno.ERANGE, none, v⟩ := by
      simp only [set_index, if_pos h]
    rw [e]
    exact ⟨⟨fun _ => h, fun _ => (show (-1 : Int) ≠ 0 by decide)⟩, fun _ => rfl⟩
  · have e : set_index v i x = ⟨0, none, none, ⟨v.len, v.cap, Function.update v.arr i x⟩⟩ := by
      simp only [set_index, if_neg h]
    rw [e]
    exact ⟨⟨fun h0 => absurd rfl h0, fun h1 => absurd h1 h⟩, fun h1 => absurd h1 h⟩

theorem remove_fast_cases (v : Vec α) (i : Nat) (b : Bool) :
    ((remove_fast v i b).ret ≠ 0 ↔ i ≥ v.len) ∧
      (i ≥ v.len → remove_fast v i b = ⟨-1, some Errno.ERANGE, none, v⟩) := by
  by_cases h : i ≥ v.len
  · have e : remove_fast v i b = ⟨-1, some Errno.ERANGE, none, v⟩ := by
      simp only [remove_fast, if_pos h]
    rw [e]
    exact ⟨⟨fun _ => h, fun _ => (show (-1 : Int) ≠ 0 by decide)⟩, fun _ => rfl⟩
  · have e : (remove_fast v i b).ret = 0 := by simp only [remove_fast, if_neg h]
    exact ⟨⟨fun h0 => absurd e h0, fun h1 => absurd h1 h⟩, fun h1 => absurd h1 h⟩

theorem remove_cases (v : Vec α) (i : Nat) (b : Bool) :
    ((remove v i b).ret ≠ 0 ↔ i ≥ v.len) ∧
      (i ≥ v.len → remove v i b = ⟨-1, some Errno.ERANGE, none, v⟩) := by
  by_cases h : i ≥ v.len
  · have e : remove v i b = ⟨-1, some Errno.ERANGE, none, v⟩ := by
      simp only [remove, if_pos h]
    rw [e]
    exact ⟨⟨fun _ => h, fun _ => (show (-1 : Int) ≠ 0 by decide)⟩, fun _ => rfl⟩
  · have e : (remove v i b).ret = 0 := by simp only [remove, if_neg h]
    exact ⟨⟨fun h0 => absurd e h0, fun h1 => absurd h1 h⟩, fun h1 => absurd h1 h⟩

theorem VECTOR_MAX_ge (i j n : Nat) : VECTOR_MAX i j ≥ n ↔ (i ≥ n ∨ j ≥ n) := by
  unfold VECTOR_MAX
  split_ifs <;> omega

theorem swap_cases (v : Vec α) (i j : Nat) :
    ((swap v i j).ret ≠ 0 ↔ (i ≥ v.len ∨ j ≥ v.len)) ∧
      ((i ≥ v.len ∨ j ≥ v.len) → swap v i j = ⟨-1, some Errno.ERANGE, none, v⟩) := by
  by_cases h : VECTOR_MAX i j ≥ v.len
  · have e : swap v i j = ⟨-1, some Errno.ERANGE, none, v⟩ := by simp only [swap, if_pos h]
    rw [e]
    exact ⟨⟨fun _ => (VECTOR_MAX_ge i j v.len).1 h, fun _ => (show (-1 : Int) ≠ 0 by decide)⟩, fun _ => rfl⟩
  · have e : (swap v i j).ret = 0 := by simp only [swap, if_neg h]
    have h' : ¬ (i ≥ v.len ∨ j ≥ v.len) := fun hh => h ((VECTOR_MAX_ge i j v.len).2 hh)
    exact ⟨⟨fun h0 => absurd e h0, fun h1 => absurd h1 h'⟩, fun h1 => absurd h1 h'⟩

theorem pop_cases (v : Vec α) (b : Bool) :
    ((pop v b).ret ≠ 0 ↔ v.len = 0) ∧
      (v.len = 0 → pop v b = ⟨-1, some Errno.ERANGE, none, v⟩) := by
  by_cases h : v.len = 0
  · have e : pop v b = ⟨-1, some Errno.ERANGE, none, v⟩ := by simp only [pop, if_pos h]
    rw [e]
    exact ⟨⟨fun _ => h, fun _ => (show (-1 : Int) ≠ 0 by decide)⟩, fun _ => rfl⟩
  · have e : (pop v b).ret = 0 := by simp only [pop, if_neg h]
    exact ⟨⟨fun h0 => absurd e h0, fun h1 => absurd h1 h⟩, fun h1 => absurd h1 h⟩

theorem insert_cases [BaseT α] (alloc : Alloc α) (v : Vec α) (i : Nat) (x : α) :
    (((insert alloc v i x).ret ≠ 0 ∧ (insert alloc v i x).errno = some Errno.ERANGE)
        ↔ i > v.len) ∧
      (i > v.len → insert alloc v i x = ⟨-1, some Errno.ERANGE, none, v⟩) := by
  by_cases h : i > v.len
  · have e : insert alloc v i x = ⟨-1, some Errno.ERANGE, none, v⟩ := by
      simp only [insert, if_pos h]
    rw [e]
    exact ⟨⟨fun _ => h, fun _ => ⟨(show (-1 : Int) ≠ 0 by decide), rfl⟩⟩, fun _ => rfl⟩
  · refine ⟨⟨fun h0 => ?_, fun h1 => absurd h1 h⟩, fun h1 => absurd h1 h⟩
    exfalso
    rcases set_len_ret alloc v (sz_add (VECTOR_MAX v.len i) 1) with
      r0 | r1 | ⟨stale, _, _, _, _, r2⟩
    · apply h0.1
      simp only [insert, if_neg h, r0, ne_eq, not_true_eq_false, if_false]
    · have e : insert alloc v i x = ⟨-1, some Errno.ENOMEM, none, v⟩ := by
        simp only [insert, if_neg h, r1, ne_eq, Int.reduceNeg, Int.neg_eq_zero, one_ne_zero,
          not_false_eq_true, if_true]
      rw [e] at h0
      exact absurd h0.2 (show ¬ some Errno.ENOMEM = some Errno.ERANGE by decide)
    · have e : insert alloc v i x = ⟨-1, none, none, ⟨v.len, v.cap, stale⟩⟩ := by
        simp only [insert, if_neg h, r2, ne_eq, Int.reduceNeg, Int.neg_eq_zero, one_ne_zero,
          not_false_eq_true, if_true]
      rw [e] at h0
      exact absurd h0.2 (show ¬ (none : Option Errno) = some Errno.ERANGE by decide)

theorem insert_fast_cases [BaseT α] (alloc : Alloc α) (v : Vec α) (i : Nat) (x : α) :
    (((insert_fast alloc v i x).ret ≠ 0 ∧ (insert_fast alloc v i x).errno = some Errno.ERANGE)
        ↔ i > v.len) ∧
      (i > v.len → insert_fast alloc v i x = ⟨-1, some Errno.ERANGE, none, v⟩) := by
  by_cases h : i > v.len
  · have e : insert_fast alloc v i x = ⟨-1, some Errno.ERANGE, none, v⟩ := by
      simp only [insert_fast, if_pos h]
    rw [e]
    exact ⟨⟨fun _ => h, fun _ => ⟨(show (-1 : Int) ≠ 0 by decide), rfl⟩⟩, fun _ => rfl⟩
  · refine ⟨⟨fun h0 => ?_, fun h1 => absurd h1 h⟩, fun h1 => absurd h1 h⟩
    exfalso
    rcases set_len_ret alloc v (sz_add (VECTOR_MAX v.len i) 1) with
      r0 | r1 | ⟨stale, _, _, _, _, r2⟩
    · apply h0.1
      simp only [insert_fast, if_neg h, r0, ne_eq, not_true_eq_false, if_false]
    · have e : insert_fast alloc v i x = ⟨-1, some Errno.ENOMEM, none, v⟩ := by
        simp only [insert_fast, if_neg h, r1, ne_eq, Int.reduceNeg, Int.neg_eq_zero,
          one_ne_zero, not_false_eq_true, if_true]
      rw [e] at h0
      exact absurd h0.2 (show ¬ some Errno.ENOMEM = some Errno.ERANGE by decide)
    · have e : insert_fast alloc v i x = ⟨-1, none, none, ⟨v.len, v.cap, stale⟩⟩ := by
        simp only [insert_fast, if_neg h, r2, ne_eq, Int.reduceNeg, Int.neg_eq_zero, one_ne_zero,
          not_false_eq_true, if_true]
      rw [e] at h0
      exact absurd h0.2 (show ¬ (none : Option Errno) = some Errno.ERANGE by decide)

/-- Claim C16: `index`, `set_index`, `remove_fast` and `remove` return non-zero
iff `i ≥ len`; `swap` returns non-zero iff `i ≥ len` or `j ≥ len`; `insert` and
`insert_fast` fail with `ERANGE` iff `i > len`; `pop` returns non-zero iff
`len = 0`.  On every such failure the result is `-1` with `ERANGE`, nothing is
stored through `out`, and the vector (`len`, `cap`, storage) is unchanged.  In
particular on an empty vector `index`, `set_index`, `swap`, `remove` and
`remove_fast` fail for every index, 0 included. -/
theorem range_errors [BaseT α] (v : Vec α) :
    (∀ i b, ((index v i b).ret ≠ 0 ↔ i ≥ v.len) ∧
      (i ≥ v.len → index v i b = ⟨-1, some Errno.ERANGE, none, v⟩)) ∧
    (∀ i x, ((set_index v i x).ret ≠ 0 ↔ i ≥ v.len) ∧
      (i ≥ v.len → set_index v i x = ⟨-1, some Errno.ERANGE, none, v⟩)) ∧
    (∀ i b, ((remove_fast v i b).ret ≠ 0 ↔ i ≥ v.len) ∧
      (i ≥ v.len → remove_fast v i b = ⟨-1, some Errno.ERANGE, none, v⟩)) ∧
    (∀ i b, ((remove v i b).ret ≠ 0 ↔ i ≥ v.len) ∧
      (i ≥ v.len → remove v i b = ⟨-1, some Errno.ERANGE, none, v⟩)) ∧
    (∀ i j, ((swap v i j).ret ≠ 0 ↔ (i ≥ v.len ∨ j ≥ v.len)) ∧
      ((i ≥ v.len ∨ j ≥ v.len) → swap v i j = ⟨-1, some Errno.ERANGE, none, v⟩)) ∧
    (∀ (alloc : Alloc α) i x,
      (((insert alloc v i x).ret ≠ 0 ∧ (insert alloc v i x).errno = some Errno.ERANGE)
        ↔ i > v.len) ∧
      (i > v.len → insert alloc v i x = ⟨-1, some Errno.ERANGE, none, v⟩)) ∧
    (∀ (alloc : Alloc α) i x,
      (((insert_fast alloc v i x).ret ≠ 0 ∧
          (insert_fast alloc v i x).errno = some Errno.ERANGE) ↔ i > v.len) ∧
      (i > v.len → insert_fast alloc v i x = ⟨-1, some Errno.ERANGE, none, v⟩)) ∧
    (∀ b, ((pop v b).ret ≠ 0 ↔ v.len = 0) ∧
      (v.len = 0 → pop v b = ⟨-1, some Errno.ERANGE, none, v⟩)) ∧
    (v.len = 0 → ∀ i j b x,
      index v i b = ⟨-1, some Errno.ERANGE, none, v⟩ ∧
      set_index v i x = ⟨-1, some Errno.ERANGE, none, v⟩ ∧
      swap v i j = ⟨-1, some Errno.ERANGE, none, v⟩ ∧
      remove v i b = ⟨-1, some Errno.ERANGE, none, v⟩ ∧
      remove_fast v i b = ⟨-1, some Errno.ERANGE, none, v⟩) := by
  refine ⟨index_cases v, set_index_cases v, remove_fast_cases v, remove_cases v, swap_cases v,
    fun alloc => insert_cases alloc v, fun alloc => insert_fast_cases alloc v, pop_cases v, ?_⟩
  intro h0 i j b x
  have hi : i ≥ v.len := by omega
  exact ⟨(index_cases v i b).2 hi, (set_index_cases v i x).2 hi,
    (swap_cases v i j).2 (Or.inl hi), (remove_cases v i b).2 hi, (remove_fast_cases v i b).2 hi⟩

theorem range_errors_witness :
    (init (fun _ => (0 : Int))).len = 0 ∧
      index (init (fun _ => (0 : Int))) 0 true
        = ⟨-1, some Errno.ERANGE, none, init (fun _ => (0 : Int))⟩ ∧
      (3 ≥ (ofList [1, 2] : Vec Int).len ∧
        remove (ofList [1, 2] : Vec Int) 3 true
          = ⟨-1, some Errno.ERANGE, none, ofList [1, 2]⟩) :=
  ⟨rfl,
    ((range_errors (init (fun _ => (0 : Int)))).2.2.2.2.2.2.2.2 rfl 0 0 true 0).1,
    by decide, ((range_errors (ofList [1, 2] : Vec Int)).2.2.2.1 3 true).2 (by decide)⟩

/-! ## Index and set_index -/


theorem set_len_ok_len [BaseT α] (alloc : Alloc α) (v : Vec α) (n : Nat)
    (h : (set_len alloc v n).ret = 0) : (set_len alloc v n).vec.len = n := by
  by_cases hn : n > v.cap
  · by_cases hr : (expand alloc v n).ret ≠ 0
    · exfalso
      have e : set_len alloc v n
          = ⟨-1, (expand alloc v n).errno, none, (expand alloc v n).vec⟩ := by
        simp only [set_len, if_pos hn, if_pos hr]
      rw [e] at h
      exact absurd h (show (-1 : Int) ≠ 0 by decide)
    · have e : set_len alloc v n = ⟨0, (expand alloc v n).errno, none,
          ⟨n, (expand alloc v n).vec.cap, (expand alloc v n).vec.arr⟩⟩ := by
        simp only [set_len, if_pos hn, if_neg hr]
      rw [e]
  · have e : set_len alloc v n = ⟨0, none, none, ⟨n, v.cap, v.arr⟩⟩ := by
      simp only [set_len, if_neg hn]
    rw [e]

theorem set_index_ok (v : Vec α) (i : Nat) (x : α) (hi : i < v.len) :
    set_index v i x = ⟨0, none, none, ⟨v.len, v.cap, Function.update v.arr i x⟩⟩ := by
  have h : ¬ i ≥ v.len := by omega
  simp only [set_index, if_neg h]

theorem index_ok (v : Vec α) (i : Nat) (hi : i < v.len) :
    index v i true = ⟨0, none, some (v.arr i), v⟩ := by
  have h : ¬ i ≥ v.len := by omega
  simp only [index, if_neg h, if_true]

theorem set_index_all_spec (f : Nat → α) : ∀ (n : Nat) (v : Vec α), n ≤ v.len →
    ∃ w, set_index_all f n v = some w ∧ w.len = v.len ∧ w.cap = v.cap ∧
      (∀ i, i < n → w.arr i = f i) ∧ (∀ i, n ≤ i → w.arr i = v.arr i) := by
  intro n
  induction n with
  | zero => intro v _; exact ⟨v, rfl, rfl, rfl, fun i hi => by omega, fun _ _ => rfl⟩
  | succ m ih =>
    intro v hn
    obtain ⟨w, e, h1, h2, h3, h4⟩ := ih v (by omega)
    have hm : m < w.len := by omega
    refine ⟨⟨w.len, w.cap, Function.update w.arr m (f m)⟩, ?_, h1, h2, ?_, ?_⟩
    · simp only [set_index_all, e, set_index_ok w m (f m) hm, if_true]
    · intro i hi
      simp only [Function.update_apply]
      by_cases him : i = m
      · rw [if_pos him, him]
      · rw [if_neg him]; exact h3 i (by omega)
    · intro i hi
      simp only
      rw [Function.update_noteq (by omega)]
      exact h4 i (by omega)

theorem set_index_all_values [BaseT α] (alloc : Alloc α) (v : Vec α) (f : Nat → α) (n : Nat)
    (hset : (set_len alloc v n).ret = 0) :
    ∃ w, set_index_all f n (set_len alloc v n).vec = some w ∧ w.len = n ∧
      w.cap = (set_len alloc v n).vec.cap ∧
      ∀ i, i < n → index w i true = ⟨0, none, some (f i), w⟩ := by
  have hl := set_len_ok_len alloc v n hset
  obtain ⟨w, e, h1, h2, h3, _⟩ := set_index_all_spec f n (set_len alloc v n).vec (by omega)
  refine ⟨w, e, by omega, h2, ?_⟩
  intro i hi
  rw [index_ok w i (by omega), h3 i hi]

theorem set_index_then_index (u : Vec α) (i : Nat) (x : α) (hi : i < u.len) :
    (set_index u i x).ret = 0 ∧ (set_index u i x).vec.len = u.len ∧
      (set_index u i x).vec.cap = u.cap ∧
      ∀ j, j < u.len → index (set_index u i x).vec j true
        = ⟨0, none, some (if j = i then x else u.arr j), (set_index u i x).vec⟩ := by
  rw [set_index_ok u i x hi]
  refine ⟨rfl, rfl, rfl, ?_⟩
  intro j hj
  simp only
  rw [index_ok ⟨u.len, u.cap, Function.update u.arr i x⟩ j hj]
  simp only [Function.update_apply]

theorem set_len_init_block [BaseT α] (fresh junk : Nat → α) (n : Nat)
    (hn : 2 * n ≤ SIZE_MOD) (hf : round_up n * sizeof α < SIZE_MOD) :
    (set_len (Alloc.block fresh) (init junk) n).ret = 0 ∧
      (set_len (Alloc.block fresh) (init junk) n).vec.len = n ∧
      n ≤ (set_len (Alloc.block fresh) (init junk) n).vec.cap ∧
      (n > (init junk).cap →
        expand_slots (Alloc.block fresh) (init junk) n
          = (set_len (Alloc.block fresh) (init junk) n).vec.cap) := by
  obtain ⟨e1, e2, _, _, e5⟩ := set_len_some fresh (init junk) n
  have hge := round_up_ge n hn
  refine ⟨e1, e2, ?_, ?_⟩
  · rcases e5 with h | h
    · have h0 : n = 0 := by
        have : (init junk).cap = 0 := rfl
        omega
      rw [h0]; exact Nat.zero_le _
    · omega
  · intro hgt
    have hc : (init junk).cap = 0 := rfl
    have hr : ¬ round_up n ≤ (init junk).cap := by omega
    rw [expand_slots_block fresh (init junk) n hr hf]
    have e : set_len (Alloc.block fresh) (init junk) n
        = ⟨0, (expand (Alloc.block fresh) (init junk) n).errno, none,
            ⟨n, (expand (Alloc.block fresh) (init junk) n).vec.cap,
              (expand (Alloc.block fresh) (init junk) n).vec.arr⟩⟩ := by
      simp only [set_len, if_pos hgt, (expand_some fresh (init junk) n).1, ne_eq,
        not_true_eq_false, if_false]
    rw [e]

/-- Claim C17 fails at `n = SIZE_MAX` on the zero state, whatever the allocator
would answer: `set_len(v, SIZE_MAX)` returns 0 without calling `realloc`, so
`len = SIZE_MAX` while `cap` is 0 and there is no block; `set_index(v, 0, x)`
then passes its range check, returns 0 and stores into slot 0, and
`index(v, 0, out)` returns 0 and reads slot 0, a slot the vector does not have.
It also fails at `n = 2^62` for 4-byte elements when `realloc` answers with a
block: the byte count `2^62 * 4` wraps to 0, so `set_len` returns 0 with
`len = cap = 2^62` and a block with room for 0 elements, and `set_index(v, 0, x)`
again stores into slot 0. -/
theorem set_index_without_storage [BaseT α] (alloc : Alloc α) (junk : Nat → α) (x : α)
    (ifresh ijunk : Nat → Int) (y : Int) :
    ((set_len alloc (init junk) (SIZE_MOD - 1)).ret = 0 ∧
      (set_len alloc (init junk) (SIZE_MOD - 1)).vec.len = SIZE_MOD - 1 ∧
      (set_len alloc (init junk) (SIZE_MOD - 1)).vec.cap = 0 ∧
      expand_slots alloc (init junk) (SIZE_MOD - 1) = 0 ∧
      (set_index (set_len alloc (init junk) (SIZE_MOD - 1)).vec 0 x).ret = 0 ∧
      set_index_writes (set_len alloc (init junk) (SIZE_MOD - 1)).vec 0 = [0] ∧
      (index (set_len alloc (init junk) (SIZE_MOD - 1)).vec 0 true).ret = 0 ∧
      index_reads (set_len alloc (init junk) (SIZE_MOD - 1)).vec 0 = [0] ∧
      ¬ ∀ k, k ∈ set_index_writes (set_len alloc (init junk) (SIZE_MOD - 1)).vec 0 →
          k < (set_len alloc (init junk) (SIZE_MOD - 1)).vec.cap) ∧
    ((set_len (Alloc.block ifresh) (init ijunk) (2 ^ 62)).ret = 0 ∧
      (set_len (Alloc.block ifresh) (init ijunk) (2 ^ 62)).vec.len = 2 ^ 62 ∧
      (set_len (Alloc.block ifresh) (init ijunk) (2 ^ 62)).vec.cap = 2 ^ 62 ∧
      sz_mul (round_up (2 ^ 62)) (sizeof Int) = 0 ∧
      expand_slots (Alloc.block ifresh) (init ijunk) (2 ^ 62) = 0 ∧
      (set_index (set_len (Alloc.block ifresh) (init ijunk) (2 ^ 62)).vec 0 y).ret = 0 ∧
      set_index_writes (set_len (Alloc.block ifresh) (init ijunk) (2 ^ 62)).vec 0 = [0] ∧
      ¬ ∀ k, k ∈ set_index_writes (set_len (Alloc.block ifresh) (init ijunk) (2 ^ 62)).vec 0 →
          k < expand_slots (Alloc.block ifresh) (init ijunk) (2 ^ 62)) := by
  constructor
  · have hr : round_up (SIZE_MOD - 1) ≤ (init junk).cap := by
      rw [round_up_size_max]; exact Nat.zero_le _
    have hg : SIZE_MOD - 1 > (init junk).cap := by
      show 0 < SIZE_MOD - 1
      decide
    have e : set_len alloc (init junk) (SIZE_MOD - 1)
        = ⟨0, none, none, ⟨SIZE_MOD - 1, (init junk).cap, (init junk).arr⟩⟩ := by
      simp only [set_len, if_pos hg, expand_no_op alloc (init junk) _ hr, ne_eq,
        not_true_eq_false, if_false]
    have hs : expand_slots alloc (init junk) (SIZE_MOD - 1) = 0 := by
      simp only [expand_slots, if_pos hr]
      rfl
    have h0 : ¬ 0 ≥ (⟨SIZE_MOD - 1, (init junk).cap, (init junk).arr⟩ : Vec α).len := by
      show ¬ 0 ≥ SIZE_MOD - 1
      decide
    have hw : set_index_writes
        (⟨SIZE_MOD - 1, (init junk).cap, (init junk).arr⟩ : Vec α) 0 = [0] := by
      simp only [set_index_writes, if_neg h0]
    have hrd : index_reads
        (⟨SIZE_MOD - 1, (init junk).cap, (init junk).arr⟩ : Vec α) 0 = [0] := by
      simp only [index_reads, if_neg h0]
    have hsi : (set_index
        (⟨SIZE_MOD - 1, (init junk).cap, (init junk).arr⟩ : Vec α) 0 x).ret = 0 := by
      simp only [set_index, if_neg h0]
    have hix : (index
        (⟨SIZE_MOD - 1, (init junk).cap, (init junk).arr⟩ : Vec α) 0 true).ret = 0 := by
      simp only [index, if_neg h0]
    rw [e]
    refine ⟨rfl, rfl, rfl, hs, hsi, hw, hix, hrd, ?_⟩
    intro h
    rw [hw] at h
    exact absurd (h 0 (List.mem_singleton.2 rfl)) (Nat.lt_irrefl 0)
  · have hr : ¬ round_up (2 ^ 62) ≤ (init ijunk).cap := by
      show ¬ round_up (2 ^ 62) ≤ 0
      decide
    have hg : 2 ^ 62 > (init ijunk).cap := by
      show 0 < 2 ^ 62
      decide
    have hru : round_up (2 ^ 62) = 2 ^ 62 := by decide
    have hb : sz_mul (round_up (2 ^ 62)) (sizeof Int) = 0 := by decide
    have e : set_len (Alloc.block ifresh) (init ijunk) (2 ^ 62)
        = ⟨0, none, none, ⟨2 ^ 62, 2 ^ 62,
            fun k => if k < (init ijunk).cap then (init ijunk).arr k else ifresh k⟩⟩ := by
      simp only [set_len, if_pos hg, expand_some_grow ifresh (init ijunk) _ hr, hru, ne_eq,
        not_true_eq_false, if_false]
    have hs : expand_slots (Alloc.block ifresh) (init ijunk) (2 ^ 62) = 0 := by
      simp only [expand_slots, if_neg hr, hb, Nat.zero_div]
    have h0 : ¬ 0 ≥ (⟨2 ^ 62, 2 ^ 62,
        fun k => if k < (init ijunk).cap then (init ijunk).arr k else ifresh k⟩ : Vec Int).len := by
      show ¬ 0 ≥ 2 ^ 62
      decide
    have hw : set_index_writes (⟨2 ^ 62, 2 ^ 62,
        fun k => if k < (init ijunk).cap then (init ijunk).arr k else ifresh k⟩ : Vec Int) 0
        = [0] := by
      simp only [set_index_writes, if_neg h0]
    have hsi : (set_index (⟨2 ^ 62, 2 ^ 62,
        fun k => if k < (init ijunk).cap then (init ijunk).arr k else ifresh k⟩ : Vec Int) 0
        y).ret = 0 := by
      simp only [set_index, if_neg h0]
    rw [e, hs]
    refine ⟨rfl, rfl, rfl, hb, rfl, hsi, hw, ?_⟩
    intro h
    rw [hw] at h
    exact absurd (h 0 (List.mem_singleton.2 rfl)) (Nat.lt_irrefl 0)

/-! ## The partition pass of quicksort: split index and safety of its steps -/


/-- Claim C18: for every range of length at least 2 (a `size_t`) and every total,
consistent three-way comparator, the partition pass of `quicksort` returns (any
fuel above `len` is enough) with a split index `lo` such that
`1 ≤ lo ≤ len - 1`, so both recursive calls, on `[0, lo)` and on `[lo, len)`, are
on non-empty ranges strictly shorter than `len`; and `quicksort` returns on
every input. -/
theorem quicksort_split (compare : α → α → Int) (hc : TotalCmp compare) (v : Vec α)
    (hsz : v.len < SIZE_MOD) (fuel : Nat) (hfuel : v.len < fuel) :
    (2 ≤ v.len →
      ∃ w lo, partition_loop compare (v.arr (v.len / 2)) fuel v 0 (sz_sub v.len 1)
          = some (w, lo) ∧ w.len = v.len ∧
        1 ≤ lo ∧ lo ≤ v.len - 1 ∧ lo < v.len ∧
        1 ≤ sz_sub w.len lo ∧ sz_sub w.len lo < v.len) ∧
    ∃ r, quicksort compare fuel v = some r := by
  constructor
  · intro h2
    have hs : sz_sub v.len 1 = v.len - 1 := sz_sub_eq (by omega) hsz
    obtain ⟨w, lo, e, w1, _, _, _, w5, w6, _, _⟩ :=
      partition_loop_spec compare (v.arr (v.len / 2)) fuel v 0 (sz_sub v.len 1) hsz
        (by omega) (by rw [hs]; omega)
        (fun k hk => by omega)
        (fun k hk hk2 => by rw [hs] at hk; omega)
        ⟨v.len / 2, by omega, by rw [hs]; omega, by omega, by rw [hc.refl_eq]⟩
        ⟨v.len / 2, by rw [hs]; omega, by omega, by omega, by rw [hc.refl_eq]⟩
        (by rw [hs]; omega)
    refine ⟨w, lo, e, w1, w5, by omega, w6, ?_, ?_⟩
    · rw [w1, sz_sub_eq (by omega) hsz]; omega
    · rw [w1, sz_sub_eq (by omega) hsz]; omega
  · obtain ⟨r, e, _⟩ := quicksort_spec compare hc fuel v hsz hfuel
    exact ⟨r, e⟩

theorem quicksort_split_witness :
    TotalCmp int_compare ∧ (ofList [3, 1, 2] : Vec Int).len < SIZE_MOD ∧
      (ofList [3, 1, 2] : Vec Int).len < 4 ∧
      (2 ≤ (ofList [3, 1, 2] : Vec Int).len →
        ∃ w lo, partition_loop int_compare
            ((ofList [3, 1, 2] : Vec Int).arr ((ofList [3, 1, 2] : Vec Int).len / 2)) 4
            (ofList [3, 1, 2]) 0 (sz_sub (ofList [3, 1, 2] : Vec Int).len 1) = some (w, lo) ∧
          w.len = (ofList [3, 1, 2] : Vec Int).len ∧
          1 ≤ lo ∧ lo ≤ (ofList [3, 1, 2] : Vec Int).len - 1 ∧
          lo < (ofList [3, 1, 2] : Vec Int).len ∧
          1 ≤ sz_sub w.len lo ∧ sz_sub w.len lo < (ofList [3, 1, 2] : Vec Int).len) ∧
      ∃ r, quicksort int_compare 4 (ofList [3, 1, 2]) = some r :=
  ⟨int_compare_total, by decide, by decide,
    quicksort_split int_compare int_compare_total (ofList [3, 1, 2]) (by decide) 4 (by decide)⟩

theorem scan_lo_tr_erase (compare : α → α → Int) (piv : α) (arr : Nat → α) :
    ∀ (fuel lo : Nat),
      (scan_lo_tr compare piv arr fuel lo).map Prod.fst = scan_lo compare piv arr fuel lo := by
  intro fuel
  induction fuel with
  | zero => intro lo; rfl
  | succ f ih =>
    intro lo
    unfold scan_lo_tr scan_lo
    by_cases hc : compare (arr lo) piv < 0
    · rw [if_pos hc, if_pos hc, ← ih (sz_add lo 1)]
      cases scan_lo_tr compare piv arr f (sz_add lo 1) with
      | none => rfl
      | some p => rfl
    · rw [if_neg hc, if_neg hc]
      rfl

theorem scan_hi_tr_erase (compare : α → α → Int) (piv : α) (arr : Nat → α) :
    ∀ (fuel hi : Nat),
      (scan_hi_tr compare piv arr fuel hi).map Prod.fst = scan_hi compare piv arr fuel hi := by
  intro fuel
  induction fuel with
  | zero => intro hi; rfl
  | succ f ih =>
    intro hi
    unfold scan_hi_tr scan_hi
    by_cases hc : compare (arr hi) piv > 0
    · rw [if_pos hc, if_pos hc, ← ih (sz_sub hi 1)]
      cases scan_hi_tr compare piv arr f (sz_sub hi 1) with
      | none => rfl
      | some p => rfl
    · rw [if_neg hc, if_neg hc]
      rfl

theorem partition_loop_tr_erase (compare : α → α → Int) (piv : α) :
    ∀ (fuel : Nat) (v : Vec α) (lo hi : Nat),
      (partition_loop_tr compare piv fuel v lo hi).map (fun r => (r.1, r.2.1))
        = partition_loop compare piv fuel v lo hi := by
  intro fuel
  induction fuel with
  | zero => intro v lo hi; rfl
  | succ f ih =>
    intro v lo hi
    unfold partition_loop_tr partition_loop
    rw [← scan_lo_tr_erase compare piv v.arr (f + 1) lo,
      ← scan_hi_tr_erase compare piv v.arr (f + 1) hi]
    cases scan_lo_tr compare piv v.arr (f + 1) lo with
    | none => rfl
    | some p =>
      obtain ⟨lo1, t1⟩ := p
      cases scan_hi_tr compare piv v.arr (f + 1) hi with
      | none => rfl
      | some q =>
        obtain ⟨hi1, t2⟩ := q
        simp only [Option.map_some']
        by_cases hb : lo1 ≥ hi1
        · rw [if_pos hb, if_pos hb]
          rfl
        · rw [if_neg hb, if_neg hb, ← ih (swap v lo1 hi1).vec (sz_add lo1 1) (sz_sub hi1 1)]
          cases partition_loop_tr compare piv f (swap v lo1 hi1).vec (sz_add lo1 1)
              (sz_sub hi1 1) with
          | none => rfl
          | some r => rfl

theorem scan_lo_tr_spec (compare : α → α → Int) (piv : α) (arr : Nat → α) :
    ∀ (fuel lo s : Nat), lo ≤ s → s < SIZE_MOD → ¬ compare (arr s) piv < 0 → s - lo < fuel →
      ∃ lo1 tr, scan_lo_tr compare piv arr fuel lo = some (lo1, tr) ∧
        ∀ st, st ∈ tr → ∃ k, st = Step.read k ∧ k ≤ s := by
  intro fuel
  induction fuel with
  | zero => intro lo s _ _ _ h; omega
  | succ f ih =>
    intro lo s hls hs hstop hf
    unfold scan_lo_tr
    by_cases hc : compare (arr lo) piv < 0
    · have hne : lo ≠ s := by rintro rfl; exact hstop hc
      rw [if_pos hc, sz_add_eq (by omega)]
      obtain ⟨lo1, tr, e, h⟩ := ih (lo + 1) s (by omega) hs hstop (by omega)
      refine ⟨lo1, Step.read lo :: tr, by rw [e], ?_⟩
      intro st hst
      rcases List.mem_cons.1 hst with h1 | h1
      · exact ⟨lo, h1, hls⟩
      · exact h st h1
    · rw [if_neg hc]
      refine ⟨lo, [Step.read lo], rfl, ?_⟩
      intro st hst
      exact ⟨lo, List.mem_singleton.1 hst, hls⟩

theorem scan_hi_tr_spec (compare : α → α → Int) (piv : α) (arr : Nat → α) :
    ∀ (fuel hi t : Nat), t ≤ hi → hi < SIZE_MOD → ¬ compare (arr t) piv > 0 → hi - t < fuel →
      ∃ hi1 tr, scan_hi_tr compare piv arr fuel hi = some (hi1, tr) ∧
        ∀ st, st ∈ tr → (∃ k, st = Step.read k ∧ k ≤ hi) ∨ (∃ k, st = Step.dec k ∧ 0 < k) := by
  intro fuel
  induction fuel with
  | zero => intro hi t _ _ _ h; omega
  | succ f ih =>
    intro hi t hth hh hstop hf
    unfold scan_hi_tr
    by_cases hc : compare (arr hi) piv > 0
    · have hne : hi ≠ t := by rintro rfl; exact hstop hc
      rw [if_pos hc, sz_sub_eq (by omega) hh]
      obtain ⟨hi1, tr, e, h⟩ := ih (hi - 1) t (by omega) (by omega) hstop (by omega)
      refine ⟨hi1, Step.read hi :: Step.dec hi :: tr, by rw [e], ?_⟩
      intro st hst
      rcases List.mem_cons.1 hst with h1 | h1
      · exact Or.inl ⟨hi, h1, le_refl _⟩
      · rcases List.mem_cons.1 h1 with h2 | h2
        · exact Or.inr ⟨hi, h2, by omega⟩
        · rcases h st h2 with ⟨k, hk1, hk2⟩ | hd
          · exact Or.inl ⟨k, hk1, by omega⟩
          · exact Or.inr hd
    · rw [if_neg hc]
      refine ⟨hi, [Step.read hi], rfl, ?_⟩
      intro st hst
      exact Or.inl ⟨hi, List.mem_singleton.1 hst, le_refl _⟩

theorem partition_loop_tr_spec (compare : α → α → Int) (piv : α) :
    ∀ (fuel : Nat) (v : Vec α) (lo hi : Nat),
      v.len < SIZE_MOD → lo ≤ hi + 1 → hi < v.len →
      (∀ k, k < lo → compare (v.arr k) piv ≤ 0) →
      (∀ k, hi < k → k < v.len → 0 ≤ compare (v.arr k) piv) →
      (∃ s, lo ≤ s ∧ s ≤ hi + 1 ∧ s < v.len ∧ 0 ≤ compare (v.arr s) piv) →
      (∃ t, t ≤ hi ∧ lo ≤ t + 1 ∧ 1 ≤ lo + t ∧ compare (v.arr t) piv ≤ 0) →
      hi + 1 - lo < fuel →
      ∃ w lo' tr, partition_loop_tr compare piv fuel v lo hi = some (w, lo', tr) ∧
        ∀ st, st ∈ tr → st.safe v.len := by
  intro fuel
  induction fuel with
  | zero => intro v lo hi _ _ _ _ _ _ _ h; omega
  | succ f ih =>
    intro v lo hi hn hlh hhi ha hb hs ht hf
    obtain ⟨s, hs1, hs2, hs3, hs4⟩ := hs
    obtain ⟨t, ht1, ht2, ht3, ht4⟩ := ht
    obtain ⟨lo1, e1, l1, l2, l3, l4⟩ :=
      scan_lo_spec compare piv v.arr (f + 1) lo s hs1 (by omega) (by omega) (by omega)
    obtain ⟨hi1, e2, r1, r2, r3, r4⟩ :=
      scan_hi_spec compare piv v.arr (f + 1) hi t ht1 (by omega) (by omega) (by omega)
    obtain ⟨lo1', t1, e1', ht1'⟩ :=
      scan_lo_tr_spec compare piv v.arr (f + 1) lo s hs1 (by omega) (by omega) (by omega)
    obtain ⟨hi1', t2, e2', ht2'⟩ :=
      scan_hi_tr_spec compare piv v.arr (f + 1) hi t ht1 (by omega) (by omega) (by omega)
    have hlo : lo1' = lo1 := by
      have h := scan_lo_tr_erase compare piv v.arr (f + 1) lo
      rw [e1', e1] at h
      exact Option.some.inj h
    have hhi' : hi1' = hi1 := by
      have h := scan_hi_tr_erase compare piv v.arr (f + 1) hi
      rw [e2', e2] at h
      exact Option.some.inj h
    subst hlo
    subst hhi'
    have safe1 : ∀ st, st ∈ t1 → st.safe v.len := by
      intro st hst
      obtain ⟨k, rfl, hk⟩ := ht1' st hst
      show k < v.len
      omega
    have safe2 : ∀ st, st ∈ t2 → st.safe v.len := by
      intro st hst
      rcases ht2' st hst with ⟨k, rfl, hk⟩ | ⟨k, rfl, hk⟩
      · show k < v.len
        omega
      · exact hk
    unfold partition_loop_tr
    simp only [e1', e2']
    by_cases hbr : lo1' ≥ hi1'
    · rw [if_pos hbr]
      refine ⟨v, lo1', t1 ++ t2, rfl, ?_⟩
      intro st hst
      rcases List.mem_append.1 hst with h | h
      · exact safe1 st h
      · exact safe2 st h
    · rw [if_neg hbr, swap_ok v lo1' hi1' (by omega) (by omega),
        sz_add_eq (by omega), sz_sub_eq (by omega) (by omega)]
      have hne : lo1' ≠ hi1' := by omega
      obtain ⟨w, lo2, t3, e, w1⟩ :=
        ih ⟨v.len, v.cap,
            Function.update (Function.update v.arr lo1' (v.arr hi1')) hi1' (v.arr lo1')⟩
          (lo1' + 1) (hi1' - 1) hn (by omega) (by simp only; omega)
          (by
            intro k hk
            simp only [Function.update_apply]
            by_cases k1 : k = hi1'
            · omega
            · rw [if_neg k1]
              by_cases k2 : k = lo1'
              · rw [if_pos k2]; omega
              · rw [if_neg k2]
                by_cases hk2 : k < lo
                · exact ha k hk2
                · exact le_of_lt (l4 k (by omega) (by omega)))
          (by
            intro k hk hkn
            simp only at hkn
            simp only [Function.update_apply]
            by_cases k1 : k = hi1'
            · rw [if_pos k1]; omega
            · rw [if_neg k1]
              by_cases k2 : k = lo1'
              · omega
              · rw [if_neg k2]
                by_cases hk3 : hi < k
                · exact hb k hk3 hkn
                · exact le_of_lt (r4 k (by omega) (by omega)))
          ⟨hi1', by omega, by omega, by simp only; omega, by
            simp only [Function.update_apply, if_true]; omega⟩
          ⟨lo1', by omega, by omega, by omega, by
            simp only [Function.update_apply, if_neg hne, if_true]; omega⟩
          (by omega)
      simp only at w1
      simp only [e]
      refine ⟨w, lo2, _, rfl, ?_⟩
      intro st hst
      rcases List.mem_append.1 hst with h | h
      · rcases List.mem_append.1 h with h' | h'
        · exact safe1 st h'
        · exact safe2 st h'
      · rcases List.mem_cons.1 h with h1 | h1
        · rw [h1]
          exact ⟨by omega, by omega, rfl⟩
        · rcases List.mem_cons.1 h1 with h2 | h2
          · rw [h2]
            show 0 < hi1'
            omega
          · exact w1 st h2

/-- Claim C19: for every range of length at least 2 (a `size_t`) and every total,
consistent three-way comparator, the partition loop of `quicksort` returns (any
fuel above `len` is enough) and every step of it is safe: every read `arr[lo]`
and `arr[hi]` uses an index below `len`, `hi--` is only executed with `hi > 0`
(the unsigned index never wraps below 0), and every call `swap(v, lo, hi)` is
made with `lo < hi < len` and returns 0.  The loop with its steps recorded
computes the same vector and split index as the loop of `quicksort`. -/
theorem partition_steps_safe (compare : α → α → Int) (hc : TotalCmp compare) (v : Vec α)
    (h2 : 2 ≤ v.len) (hsz : v.len < SIZE_MOD) (fuel : Nat) (hfuel : v.len < fuel) :
    ∃ w lo tr,
      partition_loop_tr compare (v.arr (v.len / 2)) fuel v 0 (sz_sub v.len 1)
        = some (w, lo, tr) ∧
      partition_loop compare (v.arr (v.len / 2)) fuel v 0 (sz_sub v.len 1) = some (w, lo) ∧
      ∀ st, st ∈ tr → st.safe v.len := by
  have hs : sz_sub v.len 1 = v.len - 1 := sz_sub_eq (by omega) hsz
  obtain ⟨w, lo, tr, e, h⟩ :=
    partition_loop_tr_spec compare (v.arr (v.len / 2)) fuel v 0 (sz_sub v.len 1) hsz
      (by omega) (by rw [hs]; omega)
      (fun k hk => by omega)
      (fun k hk hk2 => by rw [hs] at hk; omega)
      ⟨v.len / 2, by omega, by rw [hs]; omega, by omega, by rw [hc.refl_eq]⟩
      ⟨v.len / 2, by rw [hs]; omega, by omega, by omega, by rw [hc.refl_eq]⟩
      (by rw [hs]; omega)
  refine ⟨w, lo, tr, e, ?_, h⟩
  rw [← partition_loop_tr_erase, e]
  rfl

theorem partition_steps_safe_witness :
    TotalCmp int_compare ∧ 2 ≤ (ofList [5, 3, 1, 4, 2] : Vec Int).len ∧
      (ofList [5, 3, 1, 4, 2] : Vec Int).len < SIZE_MOD ∧
      (ofList [5, 3, 1, 4, 2] : Vec Int).len < 6 ∧
      ∃ w lo tr,
        partition_loop_tr int_compare
            ((ofList [5, 3, 1, 4, 2] : Vec Int).arr ((ofList [5, 3, 1, 4, 2] : Vec Int).len / 2))
            6 (ofList [5, 3, 1, 4, 2]) 0 (sz_sub (ofList [5, 3, 1, 4, 2] : Vec Int).len 1)
          = some (w, lo, tr) ∧
        partition_loop int_compare
            ((ofList [5, 3, 1, 4, 2] : Vec Int).arr ((ofList [5, 3, 1, 4, 2] : Vec Int).len / 2))
            6 (ofList [5, 3, 1, 4, 2]) 0 (sz_sub (ofList [5, 3, 1, 4, 2] : Vec Int).len 1)
          = some (w, lo) ∧
        ∀ st, st ∈ tr → st.safe (ofList [5, 3, 1, 4, 2] : Vec Int).len :=
  ⟨int_compare_total, by decide, by decide, by decide,
    partition_steps_safe int_compare int_compare_total (ofList [5, 3, 1, 4, 2]) (by decide)
      (by decide) 6 (by decide)⟩

/-! ## The block move of `_remove` -/


theorem remove_arr_eq (v : Vec α) (i : Nat) (b : Bool) (hi : i < v.len) :
    (remove v i b).vec.arr = memmove v.arr i (sz_add i 1) (sz_sub v.len i) := by
  have h : ¬ i ≥ v.len := by omega
  simp only [remove, if_neg h]

theorem remove_reads_len (v : Vec α) (i : Nat) (hi : i < v.len) (hsz : v.len < SIZE_MOD) :
    v.len ∈ remove_reads v i ∧ ∀ k, k ∈ remove_writes v i → k < v.len := by
  unfold remove_reads remove_writes memmove_reads memmove_writes
  rw [sz_add_eq (show i + 1 < SIZE_MOD by omega), sz_sub_eq (show i ≤ v.len by omega) hsz]
  constructor
  · apply List.mem_map.2
    exact ⟨v.len - i - 1, List.mem_range.2 (by omega), by omega⟩
  · intro k hk
    obtain ⟨j, hj, rfl⟩ := List.mem_map.1 hk
    have := List.mem_range.1 hj
    omega

/-- Claim C20 fails for the vector obtained by one `push` on the zero state
(`len = cap = 1`) and `i = 0`: `remove(v, 0, out)` returns 0 and its `memmove`
moves `len - i = 1` element from slot 1 to slot 0, so it reads slot 1, which is
outside the allocated storage of 1 slot; the slots it writes are inside. -/
theorem remove_reads_past_cap :
    (push (Alloc.block fun _ => 0) (init fun _ => (0 : Int)) 7).ret = 0 ∧
      (push (Alloc.block fun _ => 0) (init fun _ => (0 : Int)) 7).vec.len = 1 ∧
      (push (Alloc.block fun _ => 0) (init fun _ => (0 : Int)) 7).vec.cap = 1 ∧
      (remove (push (Alloc.block fun _ => 0) (init fun _ => (0 : Int)) 7).vec 0 true).ret = 0 ∧
      remove_reads (push (Alloc.block fun _ => 0) (init fun _ => (0 : Int)) 7).vec 0 = [1] ∧
      remove_writes (push (Alloc.block fun _ => 0) (init fun _ => (0 : Int)) 7).vec 0 = [0] ∧
      ¬ ∀ k, k ∈ remove_reads (push (Alloc.block fun _ => 0) (init fun _ => (0 : Int)) 7).vec 0 →
          k < (push (Alloc.block fun _ => 0) (init fun _ => (0 : Int)) 7).vec.cap := by
  refine ⟨by decide, by decide, by decide, by decide, by decide, by decide, ?_⟩
  intro h
  exact absurd (h 1 (by decide)) (by decide)

/-! ## Insertion followed by removal at the same index -/

theorem toList_eq_of_slots (v w : Vec α) (hl : w.len = v.len)
    (h : ∀ k, k < v.len → w.arr k = v.arr k) : w.toList = v.toList := by
  unfold Vec.toList
  rw [hl]
  exact map_range_congr _ _ _ h

/-- Claim C21: for every vector with `len ≤ cap`, every `i ≤ len` and every `x`
(with `len + 1` representable in `size_t`, as it is for any storage that can
exist), the allocation succeeding, `insert_fast(v, i, x)` followed by
`remove_fast(v, i, out)` returns 0 twice, stores `x` in `out` and restores the
live sequence exactly: same `len`, same element at every index below `len`.
Likewise `insert(v, i, x)` followed by `remove(v, i, out)` returns 0 twice,
stores `x` in `out` and restores the live sequence. -/
theorem insert_then_remove [BaseT α] (fresh : Nat → α) (v : Vec α) (i : Nat) (x : α)
    (hcap : v.len ≤ v.cap) (hi : i ≤ v.len) (hfit : v.len + 1 < SIZE_MOD) :
    ((insert_fast (Alloc.block fresh) v i x).ret = 0 ∧
      (remove_fast (insert_fast (Alloc.block fresh) v i x).vec i true).ret = 0 ∧
      (remove_fast (insert_fast (Alloc.block fresh) v i x).vec i true).out = some x ∧
      (remove_fast (insert_fast (Alloc.block fresh) v i x).vec i true).vec.len = v.len ∧
      (∀ k, k < v.len →
        (remove_fast (insert_fast (Alloc.block fresh) v i x).vec i true).vec.arr k = v.arr k) ∧
      (remove_fast (insert_fast (Alloc.block fresh) v i x).vec i true).vec.toList = v.toList) ∧
    ((insert (Alloc.block fresh) v i x).ret = 0 ∧
      (remove (insert (Alloc.block fresh) v i x).vec i true).ret = 0 ∧
      (remove (insert (Alloc.block fresh) v i x).vec i true).out = some x ∧
      (remove (insert (Alloc.block fresh) v i x).vec i true).vec.len = v.len ∧
      (∀ k, k < v.len →
        (remove (insert (Alloc.block fresh) v i x).vec i true).vec.arr k = v.arr k) ∧
      (remove (insert (Alloc.block fresh) v i x).vec i true).vec.toList = v.toList) := by
  constructor
  · obtain ⟨a1, a2, a3, a4, a5, _, _⟩ := insert_fast_slots fresh v i x hcap hi hfit
    obtain ⟨b1, b2, b3, _, b5, b6⟩ :=
      remove_fast_slots (insert_fast (Alloc.block fresh) v i x).vec i (by rw [a2]; omega)
        (by rw [a2]; exact hfit)
    have hl : (remove_fast (insert_fast (Alloc.block fresh) v i x).vec i true).vec.len = v.len := by
      rw [b3, a2]; omega
    have hs : ∀ k, k < v.len →
        (remove_fast (insert_fast (Alloc.block fresh) v i x).vec i true).vec.arr k = v.arr k := by
      intro k hk
      by_cases hki : k = i
      · subst hki
        rw [b5 (by rw [a2]; omega), a2, Nat.add_sub_cancel]
        exact a4 hk
      · rw [b6 k (by rw [a2]; omega) hki]
        exact a5 k hk hki
    exact ⟨a1, b1, by rw [b2, a3], hl, hs, toList_eq_of_slots v _ hl hs⟩
  · obtain ⟨a1, a2, a3, a4, a5, _⟩ := insert_slots fresh v i x hcap hi hfit
    obtain ⟨b1, b2, b3, _, b5, b6, _⟩ :=
      remove_slots (insert (Alloc.block fresh) v i x).vec i (by rw [a2]; omega)
        (by rw [a2]; exact hfit)
    have hl : (remove (insert (Alloc.block fresh) v i x).vec i true).vec.len = v.len := by
      rw [b3, a2]; omega
    have hs : ∀ k, k < v.len →
        (remove (insert (Alloc.block fresh) v i x).vec i true).vec.arr k = v.arr k := by
      intro k hk
      by_cases hki : k < i
      · rw [b5 k hki]
        exact a3 k hki
      · rw [b6 k (by omega) (by rw [a2]; omega)]
        exact a5 k (by omega) hk
    exact ⟨a1, b1, by rw [b2, a4], hl, hs, toList_eq_of_slots v _ hl hs⟩

theorem insert_then_remove_witness :
    (ofList [10, 20, 30] : Vec Int).len ≤ (ofList [10, 20, 30] : Vec Int).cap ∧
      1 ≤ (ofList [10, 20, 30] : Vec Int).len ∧
      (ofList [10, 20, 30] : Vec Int).len + 1 < SIZE_MOD ∧
      (remove_fast (insert_fast (Alloc.block fun _ => 0) (ofList [10, 20, 30] : Vec Int) 1 7).vec 1
          true).out = some 7 ∧
      (remove_fast (insert_fast (Alloc.block fun _ => 0) (ofList [10, 20, 30] : Vec Int) 1 7).vec 1
          true).vec.toList = (ofList [10, 20, 30] : Vec Int).toList ∧
      (remove (insert (Alloc.block fun _ => 0) (ofList [10, 20, 30] : Vec Int) 1 7).vec 1
          true).out = some 7 ∧
      (remove (insert (Alloc.block fun _ => 0) (ofList [10, 20, 30] : Vec Int) 1 7).vec 1
          true).vec.toList = (ofList [10, 20, 30] : Vec Int).toList :=
  ⟨by decide, by decide, by decide,
    (insert_then_remove (fun _ => 0) (ofList [10, 20, 30]) 1 7 (by decide) (by decide)
      (by decide)).1.2.2.1,
    (insert_then_remove (fun _ => 0) (ofList [10, 20, 30]) 1 7 (by decide) (by decide)
      (by decide)).1.2.2.2.2.2,
    (insert_then_remove (fun _ => 0) (ofList [10, 20, 30]) 1 7 (by decide) (by decide)
      (by decide)).2.2.2.1,
    (insert_then_remove (fun _ => 0) (ofList [10, 20, 30]) 1 7 (by decide) (by decide)
      (by decide)).2.2.2.2.2.2⟩

theorem insert_fast_alone_reorders :
    (insert_fast (Alloc.block fun _ => 0) (ofList [10, 20, 30] : Vec Int) 0 7).vec.toList =
      [7, 20, 30, 10] ∧
    (remove_fast (ofList [10, 20, 30] : Vec Int) 0 true).vec.toList = [30, 20] := by
  decide

end Vect
